import Mathlib

/-!
Verification of endcord-rpc against its specification.

This file shallowly embeds the parts of the program that the checked
properties touch:

* `rpc.py` — the IPC frame codec (`send_data_linux` / `receive_data_linux`),
  the per-client command loop of `RPC.client_thread` (rate limiting and the
  `SET_ACTIVITY` normalization entry), and the assets-normalization walk.
* `gateway.py` — the receiver's opcode dispatch, the tail of
  `Gateway.resume`, and the ready-wait of `Gateway.send_heartbeat`.
* `discord.py` — `Discord.get_detectable_apps` (status dispatch and the
  executables projection).
* `game_detection.py` — `find_app` and the add/sweep passes of
  `get_user_processes_diff_linux`.

JSON values are modelled by the inductive `JVal`; strings are lists of
Unicode code points (`List Nat`), byte streams are `List Nat` of byte
values.  Numbers carry Python's arbitrary-precision integers; floating
point payloads are outside the model.  `dumps` mirrors
`json.dumps(..., separators=(",", ":"))` with its default
`ensure_ascii=True` escaping, and the parser mirrors the grammar
`json.loads` accepts on such output.
-/

/-- A JSON value as Python's `json` module produces it, floats excluded.
Strings are code-point lists; objects are insertion-ordered key/value
lists (Python dicts). -/
inductive JVal where
  | null
  | jbool (b : Bool)
  | jint (n : Int)
  | jstr (s : List Nat)
  | jarr (xs : List JVal)
  | jobj (kvs : List (List Nat × JVal))

/-- Python truthiness (`bool(x)`) of a JSON value: `None`, `False`, `0`,
empty string, empty list and empty dict are falsy. -/
def JVal.truthy : JVal → Bool
  | .null => false
  | .jbool b => b
  | .jint n => n != 0
  | .jstr s => !s.isEmpty
  | .jarr xs => !xs.isEmpty
  | .jobj kvs => !kvs.isEmpty

/-- Decimal digits of `n`, most significant first, as ASCII codes. -/
def natDec (n : Nat) : List Nat :=
  if h : n < 10 then [48 + n]
  else natDec (n / 10) ++ [48 + n % 10]
decreasing_by exact Nat.div_lt_self (by omega) (by omega)

/-- Python's `repr` of an integer: optional minus sign, then decimal digits. -/
def intDec (i : Int) : List Nat :=
  (if i < 0 then [45] else []) ++ natDec i.natAbs

/-- Lowercase hexadecimal digit character code for `d < 16`, as
`"%04x" % n` produces it. -/
def hexDig (d : Nat) : Nat :=
  if d < 10 then 48 + d else 87 + d

/-- The four hex digit codes of `n % 0x10000`, as in `\uXXXX` escapes. -/
def hex4 (n : Nat) : List Nat :=
  [hexDig (n / 4096 % 16), hexDig (n / 256 % 16), hexDig (n / 16 % 16), hexDig (n % 16)]

/-- One code point escaped as `json.dumps` with `ensure_ascii=True` emits
it: `"` and `\` and the named control escapes, `\u00xx` for the other
control characters, printable ASCII verbatim, `\uXXXX` for everything
else, astral code points as a UTF-16 surrogate pair. -/
def escCp (c : Nat) : List Nat :=
  if c = 34 then [92, 34]
  else if c = 92 then [92, 92]
  else if c = 8 then [92, 98]
  else if c = 9 then [92, 116]
  else if c = 10 then [92, 110]
  else if c = 12 then [92, 102]
  else if c = 13 then [92, 114]
  else if 32 ≤ c ∧ c ≤ 126 then [c]
  else if c < 65536 then 92 :: 117 :: hex4 c
  else (92 :: 117 :: hex4 (55296 + (c - 65536) / 1024))
    ++ (92 :: 117 :: hex4 (56320 + (c - 65536) % 1024))

/-- A string body escaped character by character. -/
def escStr (s : List Nat) : List Nat := s.flatMap escCp

mutual
/-- `json.dumps(v, separators=(",", ":"))` as a byte list (the output is
pure ASCII, so bytes and code points coincide). -/
def dumps : JVal → List Nat
  | .null => [110, 117, 108, 108]
  | .jbool true => [116, 114, 117, 101]
  | .jbool false => [102, 97, 108, 115, 101]
  | .jint n => intDec n
  | .jstr s => 34 :: (escStr s ++ [34])
  | .jarr xs => 91 :: (dumpsElems xs ++ [93])
  | .jobj kvs => 123 :: (dumpsMembers kvs ++ [125])
/-- Array elements joined by commas. -/
def dumpsElems : List JVal → List Nat
  | [] => []
  | x :: xs => dumps x ++ dumpsElemsTail xs
/-- The elements after the first, each preceded by a comma. -/
def dumpsElemsTail : List JVal → List Nat
  | [] => []
  | x :: xs => 44 :: (dumps x ++ dumpsElemsTail xs)
/-- Object members `"key":value` joined by commas. -/
def dumpsMembers : List (List Nat × JVal) → List Nat
  | [] => []
  | (k, v) :: ms => 34 :: (escStr k ++ (34 :: 58 :: (dumps v ++ dumpsMembersTail ms)))
/-- The members after the first, each preceded by a comma. -/
def dumpsMembersTail : List (List Nat × JVal) → List Nat
  | [] => []
  | (k, v) :: ms =>
      44 :: 34 :: (escStr k ++ (34 :: 58 :: (dumps v ++ dumpsMembersTail ms)))
end

/-- ASCII decimal digit test. -/
def isDig (c : Nat) : Bool := 48 ≤ c && c ≤ 57

/-- Drop the JSON whitespace characters (space, tab, newline, carriage
return) from the front, as the decoder's whitespace regex does. -/
def skipWs : List Nat → List Nat
  | c :: cs => if c = 32 ∨ c = 9 ∨ c = 10 ∨ c = 13 then skipWs cs else c :: cs
  | [] => []

/-- The value of one hexadecimal digit character, either case. -/
def hexv (c : Nat) : Option Nat :=
  if 48 ≤ c ∧ c ≤ 57 then some (c - 48)
  else if 97 ≤ c ∧ c ≤ 102 then some (c - 87)
  else if 65 ≤ c ∧ c ≤ 70 then some (c - 55)
  else none

/-- Split a maximal run of decimal digit characters off the front. -/
def takeDigs : List Nat → List Nat × List Nat
  | c :: cs =>
      if isDig c then
        let (ds, r) := takeDigs cs
        (c :: ds, r)
      else ([], c :: cs)
  | [] => ([], [])

/-- The number denoted by a list of decimal digit characters. -/
def digsVal (ds : List Nat) : Nat := ds.foldl (fun acc c => acc * 10 + (c - 48)) 0

mutual
/-- Parse a JSON string body after the opening quote, exactly as the
decoder's `scanstring` does in strict mode: literal characters up to the
closing quote (control characters rejected), named escapes, and `\uXXXX`
with UTF-16 surrogate-pair recombination.  Returns the code points and
the input after the closing quote.  The fuel argument only bounds the
iteration count; every step consumes input, so `length + 1` always
suffices. -/
def pStr : Nat → List Nat → List Nat → Option (List Nat × List Nat)
  | 0, _, _ => none
  | _ + 1, _, [] => none
  | fuel + 1, acc, c :: rest =>
      if c = 34 then some (acc.reverse, rest)
      else if c = 92 then
        match rest with
        | 34 :: r => pStr fuel (34 :: acc) r
        | 92 :: r => pStr fuel (92 :: acc) r
        | 47 :: r => pStr fuel (47 :: acc) r
        | 98 :: r => pStr fuel (8 :: acc) r
        | 102 :: r => pStr fuel (12 :: acc) r
        | 110 :: r => pStr fuel (10 :: acc) r
        | 114 :: r => pStr fuel (13 :: acc) r
        | 116 :: r => pStr fuel (9 :: acc) r
        | 117 :: a :: b :: c :: d :: r =>
            match hexv a, hexv b, hexv c, hexv d with
            | some va, some vb, some vc, some vd =>
                let u := ((va * 16 + vb) * 16 + vc) * 16 + vd
                if 55296 ≤ u ∧ u ≤ 56319 then pStrPair fuel acc u r
                else pStr fuel (u :: acc) r
            | _, _, _, _ => none
        | _ => none
      else if c < 32 then none
      else pStr fuel (c :: acc) rest
/-- The decoder's look-ahead after a high surrogate `\uXXXX`: when the
next characters are a low-surrogate escape the two combine into one
astral code point, when they are `\u` with bad hex the decode fails,
and otherwise the lone high surrogate is kept and scanning resumes. -/
def pStrPair : Nat → List Nat → Nat → List Nat → Option (List Nat × List Nat)
  | 0, _, _, _ => none
  | fuel + 1, acc, u, 92 :: 117 :: e :: f :: g :: h :: r2 =>
      match hexv e, hexv f, hexv g, hexv h with
      | some ve, some vf, some vg, some vh =>
          let u2 := ((ve * 16 + vf) * 16 + vg) * 16 + vh
          if 56320 ≤ u2 ∧ u2 ≤ 57343 then
            pStr fuel ((65536 + (u - 55296) * 1024 + (u2 - 56320)) :: acc) r2
          else pStr fuel (u :: acc) (92 :: 117 :: e :: f :: g :: h :: r2)
      | _, _, _, _ => none
  | _ + 1, _, _, 92 :: 117 :: _ => none
  | fuel + 1, acc, u, r => pStr fuel (u :: acc) r
end

/-- Parse a JSON number from the front.  The integer grammar
`-?(0|[1-9][0-9]*)` is handled exactly; a fractional part or exponent
would make the decoder build a float, which is outside the model, so
those inputs map to `none`. -/
def pNum (s : List Nat) : Option (JVal × List Nat) :=
  match s with
  | [] => none
  | c :: r =>
      if c = 45 then
        match r with
        | [] => none
        | c2 :: r2 => pNumBody true c2 r2
      else pNumBody false c r
where
  /-- The integer part after the optional sign: `0` alone, or a nonzero
  digit and the following digit run. -/
  pNumBody (neg : Bool) (c : Nat) (r : List Nat) : Option (JVal × List Nat) :=
    if c = 48 then pNumTail neg 0 r
    else if isDig c then
      let (ds, r2) := takeDigs r
      pNumTail neg (digsVal (c :: ds)) r2
    else none
  /-- Reject the float continuations `.`, `e`, `E`; otherwise produce the
  signed integer. -/
  pNumTail (neg : Bool) (n : Nat) (r : List Nat) : Option (JVal × List Nat) :=
    match r with
    | 46 :: _ => none
    | 101 :: _ => none
    | 69 :: _ => none
    | _ => some (.jint (if neg then -(n : Int) else (n : Int)), r)

mutual
/-- Parse one JSON value, dispatching on the first non-whitespace
character in the order of the decoder's scanner: string, object, array,
the three literals, then a number (`NaN`/`Infinity` are omitted with
floats).  `fuel` only bounds recursion depth; `2 * length + 2` always
suffices. -/
def pVal : Nat → List Nat → Option (JVal × List Nat)
  | 0, _ => none
  | fuel + 1, s =>
      match skipWs s with
      | [] => none
      | c :: r =>
          if c = 34 then
            match pStr (r.length + 1) [] r with
            | some (str, r2) => some (.jstr str, r2)
            | none => none
          else if c = 123 then
            match skipWs r with
            | c2 :: r2 =>
                if c2 = 125 then some (.jobj [], r2)
                else
                  match pMembers fuel (c2 :: r2) with
                  | some (ms, r3) => some (.jobj ms, r3)
                  | none => none
            | [] => none
          else if c = 91 then
            match skipWs r with
            | c2 :: r2 =>
                if c2 = 93 then some (.jarr [], r2)
                else
                  match pElems fuel (c2 :: r2) with
                  | some (xs, r3) => some (.jarr xs, r3)
                  | none => none
            | [] => none
          else if c = 110 then
            match r with
            | 117 :: 108 :: 108 :: r2 => some (.null, r2)
            | _ => none
          else if c = 116 then
            match r with
            | 114 :: 117 :: 101 :: r2 => some (.jbool true, r2)
            | _ => none
          else if c = 102 then
            match r with
            | 97 :: 108 :: 115 :: 101 :: r2 => some (.jbool false, r2)
            | _ => none
          else pNum (c :: r)
/-- Parse one or more comma-separated array elements and the closing
bracket: one value, then the delimiter handler. -/
def pElems : Nat → List Nat → Option (List JVal × List Nat)
  | 0, _ => none
  | fuel + 1, s =>
      match pVal fuel s with
      | none => none
      | some (v, r) => pElemsRest fuel v (skipWs r)
/-- After one array element: a comma continues with further elements, a
closing bracket ends the array, anything else is a syntax error. -/
def pElemsRest : Nat → JVal → List Nat → Option (List JVal × List Nat)
  | 0, _, _ => none
  | fuel + 1, v, 44 :: r2 =>
      match pElems fuel (skipWs r2) with
      | some (vs, r3) => some (v :: vs, r3)
      | none => none
  | _ + 1, v, 93 :: r2 => some ([v], r2)
  | _ + 1, _, _ => none
/-- Parse one or more comma-separated object members and the closing
brace. -/
def pMembers : Nat → List Nat → Option (List (List Nat × JVal) × List Nat)
  | 0, _ => none
  | fuel + 1, s => pMembersKey fuel (skipWs s)
/-- An object member must start with a string key. -/
def pMembersKey : Nat → List Nat → Option (List (List Nat × JVal) × List Nat)
  | 0, _ => none
  | fuel + 1, 34 :: r =>
      match pStr (r.length + 1) [] r with
      | none => none
      | some (key, r1) => pMembersColon fuel key (skipWs r1)
  | _ + 1, _ => none
/-- After the key: a colon, then the member value. -/
def pMembersColon : Nat → List Nat → List Nat → Option (List (List Nat × JVal) × List Nat)
  | 0, _, _ => none
  | fuel + 1, key, 58 :: r2 =>
      match pVal fuel (skipWs r2) with
      | none => none
      | some (v, r3) => pMembersRest fuel key v (skipWs r3)
  | _ + 1, _, _ => none
/-- After one member: a comma continues with further members, a closing
brace ends the object, anything else is a syntax error. -/
def pMembersRest :
    Nat → List Nat → JVal → List Nat → Option (List (List Nat × JVal) × List Nat)
  | 0, _, _, _ => none
  | fuel + 1, key, v, 44 :: r4 =>
      match pMembers fuel (skipWs r4) with
      | some (ms, r5) => some ((key, v) :: ms, r5)
      | none => none
  | _ + 1, key, v, 125 :: r4 => some ([(key, v)], r4)
  | _ + 1, _, _, _ => none
end

/-- `json.loads` on a decoded character sequence: parse one value and
require only whitespace after it. -/
def loadsCp (s : List Nat) : Option JVal :=
  match pVal (2 * s.length + 2) s with
  | some (v, r) => if skipWs r = [] then some v else none
  | none => none

/-- Strict UTF-8 decoding (`bytes.decode("utf-8")`): the accepted byte
sequences are exactly RFC 3629's, rejecting overlong forms, surrogates
and values beyond U+10FFFF. -/
def utf8Decode : List Nat → Option (List Nat)
  | [] => some []
  | b :: bs =>
      if b < 128 then (utf8Decode bs).map (b :: ·)
      else
        match b, bs with
        | b1, b2 :: rest =>
            if 194 ≤ b1 ∧ b1 ≤ 223 ∧ 128 ≤ b2 ∧ b2 ≤ 191 then
              (utf8Decode rest).map (((b1 - 192) * 64 + (b2 - 128)) :: ·)
            else
              match rest with
              | b3 :: rest2 =>
                  if 224 ≤ b1 ∧ b1 ≤ 239 ∧ 128 ≤ b2 ∧ b2 ≤ 191 ∧ 128 ≤ b3 ∧ b3 ≤ 191
                      ∧ (b1 = 224 → 160 ≤ b2) ∧ (b1 = 237 → b2 ≤ 159) then
                    (utf8Decode rest2).map
                      (((b1 - 224) * 4096 + (b2 - 128) * 64 + (b3 - 128)) :: ·)
                  else
                    match rest2 with
                    | b4 :: rest3 =>
                        if 240 ≤ b1 ∧ b1 ≤ 244 ∧ 128 ≤ b2 ∧ b2 ≤ 191 ∧ 128 ≤ b3 ∧ b3 ≤ 191
                            ∧ 128 ≤ b4 ∧ b4 ≤ 191 ∧ (b1 = 240 → 144 ≤ b2) ∧ (b1 = 244 → b2 ≤ 143) then
                          (utf8Decode rest3).map
                            (((b1 - 240) * 262144 + (b2 - 128) * 4096
                              + (b3 - 128) * 64 + (b4 - 128)) :: ·)
                        else none
                    | [] => none
              | [] => none
        | _, [] => none

/-- `json.loads` on a byte payload: decode UTF-8, then parse. -/
def loads (bs : List Nat) : Option JVal :=
  (utf8Decode bs).bind loadsCp

/-! ## Payload well-formedness

`wfPayload` carves out the `JVal`s that denote actual Python payloads:
string components are sequences of Unicode scalar values (Python strings
with lone surrogates cannot be UTF-8 encoded by the transport anyway)
and object keys are distinct, as in any Python dict. -/

/-- A Unicode scalar value: a code point that is not a surrogate. -/
def scalarCp (c : Nat) : Bool := c < 1114112 && !(55296 ≤ c && c ≤ 57343)

/-- A well-formed model string: all scalar values. -/
def wfStr (s : List Nat) : Bool := s.all scalarCp

mutual
/-- Payload well-formedness: scalar-value strings throughout and
duplicate-free object keys. -/
def wfPayload : JVal → Bool
  | .null => true
  | .jbool _ => true
  | .jint _ => true
  | .jstr s => wfStr s
  | .jarr xs => wfArr xs
  | .jobj kvs =>
      decide ((kvs.map Prod.fst).Nodup) && (kvs.map Prod.fst).all wfStr && wfMems kvs
/-- All array elements well-formed. -/
def wfArr : List JVal → Bool
  | [] => true
  | x :: xs => wfPayload x && wfArr xs
/-- All object member values well-formed. -/
def wfMems : List (List Nat × JVal) → Bool
  | [] => true
  | (_, v) :: ms => wfPayload v && wfMems ms
end

/-! ## IPC framing (`rpc.py`: `send_data_linux` / `receive_data_linux`) -/

/-- Little-endian byte quadruple of `n < 2^32`. -/
def le4 (n : Nat) : List Nat :=
  [n % 256, n / 256 % 256, n / 65536 % 256, n / 16777216 % 256]

/-- `struct.pack("<i", n)`: two's-complement little-endian bytes;
`struct.error` (here `none`) outside the signed 32-bit range. -/
def pack_i32 (n : Int) : Option (List Nat) :=
  if -2147483648 ≤ n ∧ n < 2147483648 then some (le4 (n % 4294967296).toNat) else none

/-- `struct.unpack("<I", ...)` over four bytes. -/
def unpack_u32 (b0 b1 b2 b3 : Nat) : Nat :=
  b0 + 256 * b1 + 65536 * b2 + 16777216 * b3

/-- `send_data_linux`: dump the payload compactly, prefix `<op:i32 le>`
and `<len:i32 le>`, append the UTF-8 bytes.  `dumps` output is pure
ASCII (`ensure_ascii=True`), so the string length packed equals the byte
count appended.  `none` models a `struct.error` escape on an
out-of-range integer. -/
def send_data_linux (op : Int) (data : JVal) : Option (List Nat) :=
  (pack_i32 op).bind fun a =>
    (pack_i32 ((dumps data).length : Int)).bind fun b => some (a ++ b ++ dumps data)

/-- Outcome of `receive_data_linux`: a parsed frame, the `(None, None)`
return on `struct.error` (short header), or an uncaught `json.loads`
exception (the function catches only `struct.error`). -/
inductive RecvResult where
  | ok (op : Nat) (v : JVal)
  | nones
  | exn

/-- `receive_data_linux`: read an 8-byte header, unpack op and length as
unsigned little-endian, read `length` bytes, parse them as JSON. -/
def receive_data_linux : List Nat → RecvResult
  | b0 :: b1 :: b2 :: b3 :: b4 :: b5 :: b6 :: b7 :: rest =>
      let op := unpack_u32 b0 b1 b2 b3
      let len := unpack_u32 b4 b5 b6 b7
      match loads (rest.take len) with
      | some v => .ok op v
      | none => .exn
  | _ => .nones

/-! ## The IPC command loop (`rpc.py`: `RPC.client_thread`, lines 193–301)

The loop is modelled parametrically in the type `α` of non-null activity
payloads: the control flow only compares payloads for equality
(`data["args"]["activity"] == prev_activity`) and tests Python
truthiness (`if not activity`), so any `α` with decidable equality and a
truthiness function embeds it.  JSON `null` is Python `None` and is
represented by `Option.none`, matching the initial
`prev_activity = None`.  `time.time()` is an integer-valued clock here;
the two reads inside one iteration (lines 204 and 208) are coalesced
into the iteration's single timestamp. -/

/-- `GATEWAY_RATE_LIMIT`: gap required between differing publishes. -/
def GATEWAY_RATE_LIMIT : Int := 5

/-- `GATEWAY_RATE_LIMIT_SAME`: gap required between identical publishes. -/
def GATEWAY_RATE_LIMIT_SAME : Int := 60

/-- One received frame: a `SET_ACTIVITY` command (with its activity
payload, `none` for JSON null, and whether the payload carries an
`assets` key), or any other command. -/
inductive Frame (α : Type) where
  | set (activity : Option α) (hasAssets : Bool)
  | other

/-- The per-client loop state: `sent_time` and `prev_activity`. -/
structure CState (α : Type) where
  sent : Int
  prev : Option α

/-- Observable responses of one loop iteration, in order: `echoLimited`
is the echo sent inside the rate-limit branch (line 206), `normalize`
marks entry into the normalization path (line 213 onward), `publish` the
activities-table update and final response (lines 271–287; reached when
the activity carries an `assets` key, since line 219 indexes it), and
`echoOther` the response to any other command. -/
inductive ClientEvent where
  | echoLimited
  | normalize
  | publish
  | echoOther
deriving DecidableEq, Repr

/-- One iteration of the command loop on one frame at time `now`. -/
def clientStep {α : Type} [DecidableEq α] (atruthy : α → Bool)
    (st : CState α) (now : Int) : Frame α → CState α × List ClientEvent
  | .other => (st, [.echoOther])
  | .set activity hasAssets =>
      let delay : Int :=
        if activity = st.prev then GATEWAY_RATE_LIMIT_SAME else GATEWAY_RATE_LIMIT
      let limited := now - st.sent < delay
      let st1 := if limited then { sent := now, prev := activity } else st
      let evs : List ClientEvent := if limited then [.echoLimited] else []
      match activity with
      | none => (st1, evs)
      | some a =>
          if atruthy a then
            (st1, evs ++ (.normalize :: if hasAssets then [.publish] else []))
          else (st1, evs)

/-- Run the command loop over timestamped frames, collecting each
iteration's events. -/
def runClient {α : Type} [DecidableEq α] (atruthy : α → Bool) :
    CState α → List (Int × Frame α) → List (List ClientEvent)
  | _, [] => []
  | st, (t, f) :: rest =>
      let (st2, evs) := clientStep atruthy st t f
      evs :: runClient atruthy st2 rest

/-- The whole dialogue after the handshake reply: `sent_time` starts
`GATEWAY_RATE_LIMIT + 1` seconds in the past of the handshake time `t0`
(line 193) and `prev_activity` starts as `None`. -/
def clientTrace {α : Type} [DecidableEq α] (atruthy : α → Bool)
    (t0 : Int) (frames : List (Int × Frame α)) : List (List ClientEvent) :=
  runClient atruthy { sent := t0 - (GATEWAY_RATE_LIMIT + 1), prev := none } frames

/-! ## Assets normalization (`rpc.py` lines 218–247) -/

/-- Python's substring operator `needle in hay`. -/
def pyContains (hay needle : String) : Bool :=
  hay.toList.tails.any (fun t => needle.toList.isPrefixOf t)

/-- Python's string slice `s[:n]`. -/
def pySlice (s : String) (n : Nat) : String := String.mk (s.toList.take n)

/-- `DISCORD_ASSETS_WHITELIST`: asset keys passed through as text. -/
def DISCORD_ASSETS_WHITELIST : List String :=
  ["large_text", "small_text", "large_image", "small_image"]

/-- The asset walk building the fresh `assets` dict: external `https://`
values resolve through the REST helper (`getExt` abstracts the 5-retry
`get_rpc_app_external` loop; `some p` is a successful resolution to
`external_asset_path = p`, `none` covers failure or `self.external`
handling), keys containing `image` resolve against the app's declared
assets (`rpc_assets` as `(id, name)` pairs, first name match wins), and
whitelisted keys pass through.  Anything else is dropped. -/
def processAssets (external : Bool) (getExt : String → Option String)
    (rpc_assets : List (String × String)) : List (String × String) → List (String × String)
  | [] => []
  | (k, v) :: rest =>
      if pySlice v 8 = "https://" then
        (match external, getExt v with
         | true, some path => [(k, "mp:" ++ path)]
         | _, _ => []) ++ processAssets external getExt rpc_assets rest
      else if pyContains k "image" then
        (match rpc_assets.find? (fun a => a.2 == v) with
         | some a => [(k, a.1)]
         | none => []) ++ processAssets external getExt rpc_assets rest
      else if DISCORD_ASSETS_WHITELIST.contains k then
        (k, v) :: processAssets external getExt rpc_assets rest
      else processAssets external getExt rpc_assets rest

/-! ## Gateway receiver and resume (`gateway.py`) -/

/-- What `Gateway.resume` returns after sending the opcode-6 payload and
reading the next frame: an integer gateway opcode, or Python's `True`
(the literal `return op or True`). -/
inductive ResumeRet where
  | code (n : Int)
  | pyTrue
deriving DecidableEq

/-- The tail of `Gateway.resume` (lines 518–525): `some n` is a frame
that parsed to a JSON object whose `op` field is `n`; `none` is a
`json.JSONDecodeError` caught by the `except` arm. -/
def resumeReturn : Option Int → ResumeRet
  | none => .code 9
  | some op => if op = 0 then .pyTrue else .code op

/-- One parsed gateway message as the receiver sees it: its opcode
(`none` when the frame did not parse) and the payload projections the
dispatch reads: truthiness of `d`, `d.heartbeat_interval`, and `s`. -/
structure GwMsg where
  opcode : Option Int
  dTruthy : Bool
  interval : Nat
  seq : Int

/-- Receiver-loop state over the fields its dispatch writes.  `exited`
records that the loop has broken out (after which a reconnect is
triggered by the code that follows the loop). -/
structure GwState where
  resumable : Bool
  sequence : Option Int
  heartbeat_received : Bool
  heartbeat_interval : Nat
  exited : Bool

/-- One iteration of the receiver dispatch (lines 316–413) on a parsed
message.  Opcode 0 dispatch bodies other than the `sequence` update are
elided: none of them touch `resumable` or leave the loop.  The
`ws.recv_data` failure and close-frame entries into the loop are
separate paths and are not messages. -/
def receiverStep (st : GwState) (msg : GwMsg) : GwState :=
  if st.exited then st
  else
    match msg.opcode with
    | some 11 => { st with heartbeat_received := true }
    | some 10 => { st with heartbeat_interval := msg.interval }
    | some 1 => st
    | some 0 => { st with sequence := some msg.seq }
    | some 7 => { st with resumable := true, exited := true }
    | some 9 => if msg.dTruthy then { st with exited := true } else st
    | _ => st

/-- The receiver's state after processing a message list, starting as
`receiver` does: `resumable` cleared on entry (line 269),
`heartbeat_received` true from `__init__`. -/
def runReceiver (interval0 : Nat) (msgs : List GwMsg) : GwState :=
  msgs.foldl receiverStep
    { resumable := false, sequence := none, heartbeat_received := true,
      heartbeat_interval := interval0, exited := false }

/-- The ready-wait loop of `Gateway.send_heartbeat` (lines 427–433),
counting in half-second sleeps: `k` sleeps have happened (so
`sleep_time = 5 * k`), and `r` more loop entries happen before `ready`
is observed true.  The abort test `sleep_time >= heartbeat_interval / 100`
is exact for integers: `5 * k ≥ interval / 100` over the reals iff
`500 * k ≥ interval`, and the float division by 100 cannot cross an
integer for realistic intervals.  Returns `true` when the loop aborts
(`SystemExit`), `false` when it proceeds to real beats. -/
def hbWaitGo (interval : Nat) : Nat → Nat → Bool
  | _, 0 => false
  | k, r + 1 => if 500 * k ≥ interval then true else hbWaitGo interval (k + 1) r

/-- Whether `send_heartbeat` aborts while waiting for READY, when READY
arrives after `readyAfter` half-second sleeps. -/
def sendHeartbeatAborts (interval readyAfter : Nat) : Bool :=
  hbWaitGo interval 0 readyAfter

/-! ## Catalog fetch (`discord.py`: `Discord.get_detectable_apps`) -/

/-- Python's `s.startswith(pre)`. -/
def pyStartsWith (s pre : String) : Bool := pre.toList.isPrefixOf s.toList

/-- Python `s.lower()`, ASCII range (catalog paths are ASCII). -/
def pyLower (s : String) : String := String.mk (s.toList.map Char.toLower)

/-- `exe["os"]` to the stored os code: `linux → 0`, `win32 → 1`,
`darwin → 2`, anything else dropped. -/
def exeOsCode (os : String) : Option Nat :=
  if os = "linux" then some 0
  else if os = "win32" then some 1
  else if os = "darwin" then some 2
  else none

/-- The executables projection of lines 291–299: keep mappable os codes,
lowercase the name and guarantee a leading slash. -/
def convertExecutables (exes : List (String × String)) : List (Nat × String) :=
  exes.filterMap fun e =>
    (exeOsCode e.1).map fun code =>
      let piece := pyLower e.2
      (code, if pyStartsWith piece "/" then piece else "/" ++ piece)

/-- The `ETag` response header sliced `[3:-1]` (strips `W/"` and `"`). -/
def etagSlice (hdr : String) : String := String.mk ((hdr.toList.drop 3).dropLast)

/-- The saved catalog file path
`save_dir/detectable_apps_{etag}_{current_time}.ndjson`
(`os.path.expanduser` and platform separators elided). -/
def catalogPath (save_dir etag : String) (current_time : Nat) : String :=
  save_dir ++ "/detectable_apps_" ++ etag ++ "_" ++ toString current_time ++ ".ndjson"

/-- The HTTP outcomes `get_detectable_apps` distinguishes.  `ok200`
carries the `ETag` header, the computed `int(time.time()/1000)`, and
whether the streaming body parse raised. -/
inductive DetectableResp where
  | netError
  | ok200 (etagHdr : String) (now : Nat) (bodyRaises : Bool)
  | notModified
  | otherStatus (code : Nat)

/-- The result of a `get_detectable_apps` call: a normal
`return path?, etag?`, or an uncaught `UnboundLocalError`. -/
inductive FetchOutcome where
  | ret (path : Option String) (etag : Option String)
  | unboundLocalError
deriving DecidableEq

/-- `Discord.get_detectable_apps` (lines 260–313), status dispatch.
`current_time` is a Python local assigned only inside the 200 branch
(line 280); it is modelled as an `Option` that is still `none` when the
304 branch reads it, which is Python's `UnboundLocalError`. -/
def get_detectable_apps (save_dir : String) (etag : Option String)
    (resp : DetectableResp) : FetchOutcome :=
  let current_time : Option Nat := none
  match resp with
  | .netError => .ret none etag
  | .ok200 etagHdr now bodyRaises =>
      let current_time := some now
      let etag2 := etagSlice etagHdr
      match current_time with
      | some t =>
          if bodyRaises then .ret none (some etag2)
          else .ret (some (catalogPath save_dir etag2 t)) (some etag2)
      | none => .unboundLocalError
  | .notModified =>
      match current_time with
      | some t =>
          .ret (some (catalogPath save_dir (toString etag) t)) etag
      | none => .unboundLocalError
  | .otherStatus _ => .ret none etag

/-! ## Catalog lookup (`game_detection.py`: `find_app`) -/

/-- Eligibility of a catalog executable's os code under the running
platform (lines 274–281): Linux (0) accepts 0 and 1 (Wine), Windows (1)
accepts only 1, anything else accepts only 2 (the macOS arm). -/
def entryEligible (my_platform platform_val : Int) : Bool :=
  if my_platform = 0 then platform_val = 0 || platform_val = 1
  else if my_platform = 1 then platform_val = 1
  else platform_val = 2

/-- Whether one `(os_code, path_suffix)` executable entry matches a
lowercased process path: nonempty suffix, eligible os code, suffix a
substring of the path (lines 271–283). -/
def entryMatches (my_platform : Int) (proc_lower : String) (e : Int × String) : Bool :=
  !(e.2 = "") && entryEligible my_platform e.1 && pyContains proc_lower e.2

/-- `find_app`: scan catalog lines (`none` are lines whose JSON parse
failed and are skipped) and return
`(app_id, app_name, suffix without its leading slash)` from the first
matching executable entry. -/
def find_app (proc_path : String)
    (catalog : List (Option (String × String × List (Int × String))))
    (my_platform : Int) : Option (String × String × String) :=
  let pp := pyLower proc_path
  go pp catalog
where
  /-- Line-by-line scan. -/
  go (pp : String) : List (Option (String × String × List (Int × String))) →
      Option (String × String × String)
    | [] => none
    | none :: rest => go pp rest
    | some (id, name, exes) :: rest =>
        match exes.find? (entryMatches my_platform pp) with
        | some e => some (id, name, String.mk (e.2.toList.drop 1))
        | none => go pp rest

/-! ## Process scanner (`game_detection.py`:
`get_user_processes_diff_linux`)

The cache is the module-global `proc_cache`, a PID-keyed insertion-
ordered dict `pid → [path | None, alive]`, modelled as an ordered list.
A pass input is the `/proc` listing: each numeric pid together with the
path its filters derive (`none` when the uid/cmdline filters or an
exception skip it — the entry then stays cached as `[None, True]`).
Dict assignment to the key just created collapses the `[None, True]`
placeholder plus the immediate `[path, True]` overwrite into appending
the final value. -/

/-- The multiset support of the cache: its non-null paths in order. -/
def cachePaths (cache : List (Nat × Option String × Bool)) : List String :=
  cache.filterMap (·.2.1)

/-- The cached pids in order. -/
def cachePids (cache : List (Nat × Option String × Bool)) : List Nat :=
  cache.map (·.1)

/-- Mark a cached pid alive (`proc_cache[pid][1] = True`). -/
def markAlive (cache : List (Nat × Option String × Bool)) (pid : Nat) :
    List (Nat × Option String × Bool) :=
  cache.map fun e => if e.1 = pid then (e.1, e.2.1, true) else e

/-- The `/proc` loop (lines 61–109): known pids are marked alive,
new filtered-out pids are cached as `(none, alive)`, new kept pids are
cached with their path and the path is appended to `added` unless
already there. -/
def procPassAdd (cache : List (Nat × Option String × Bool)) (added : List String) :
    List (Nat × Option String) → List (Nat × Option String × Bool) × List String
  | [] => (cache, added)
  | (pid, res) :: rest =>
      if cache.any (fun e => e.1 = pid) then
        procPassAdd (markAlive cache pid) added rest
      else
        match res with
        | none => procPassAdd (cache ++ [(pid, none, true)]) added rest
        | some path =>
            procPassAdd (cache ++ [(pid, some path, true)])
              (if path ∈ added then added else added ++ [path]) rest

/-- The cleanup loop (lines 112–119): dead entries are evicted, their
non-null paths reported in `removed` once per path; surviving entries
have `alive` flipped to false. -/
def procPassSweep : List (Nat × Option String × Bool) → List String →
    List (Nat × Option String × Bool) × List String
  | [], removed => ([], removed)
  | (pid, pathOpt, alive) :: rest, removed =>
      if alive then
        let (c2, removed2) := procPassSweep rest removed
        ((pid, pathOpt, false) :: c2, removed2)
      else
        procPassSweep rest
          (match pathOpt with
           | some p => if p ∈ removed then removed else removed ++ [p]
           | none => removed)

/-- One full `get_user_processes_diff_linux` pass: the `/proc` loop,
then the cleanup loop.  Returns the new cache and `(added, removed)`. -/
def get_user_processes_diff_linux (cache : List (Nat × Option String × Bool))
    (listing : List (Nat × Option String)) :
    List (Nat × Option String × Bool) × List String × List String :=
  let (c1, added) := procPassAdd cache [] listing
  let (c2, removed) := procPassSweep c1 []
  (c2, added, removed)

/-- Run `N` scanner passes, concatenating everything ever reported. -/
def runScanner (cache : List (Nat × Option String × Bool)) :
    List (List (Nat × Option String)) →
    List (Nat × Option String × Bool) × List String × List String
  | [] => (cache, [], [])
  | l :: ls =>
      let (c1, a, r) := get_user_processes_diff_linux cache l
      let (c2, as_, rs) := runScanner c1 ls
      (c2, a ++ as_, r ++ rs)

/-- The paths a pass's listing introduces: paths of listed pids not yet
cached that survived the filters. -/
def newPaths (cache : List (Nat × Option String × Bool))
    (listing : List (Nat × Option String)) : List String :=
  listing.filterMap fun pr => if pr.1 ∈ cachePids cache then none else pr.2

/-- A collision-free pass: distinct pids in the listing, the fresh
surviving paths pairwise distinct and distinct from every cached
non-null path. -/
def okStep (cache : List (Nat × Option String × Bool))
    (listing : List (Nat × Option String)) : Prop :=
  (listing.map Prod.fst).Nodup ∧ (newPaths cache listing).Nodup ∧
    ∀ q ∈ newPaths cache listing, q ∉ cachePaths cache

/-- All passes of a run are collision-free, along the evolving cache. -/
def okTrace : List (Nat × Option String × Bool) → List (List (Nat × Option String)) → Prop
  | _, [] => True
  | cache, l :: ls =>
      okStep cache l ∧ okTrace (get_user_processes_diff_linux cache l).1 ls

/-- The non-null paths of entries the sweep will keep (alive flag set). -/
def alivePaths (cache : List (Nat × Option String × Bool)) : List String :=
  cache.filterMap fun e => if e.2.2 then e.2.1 else none

/-- The non-null paths of entries the sweep will evict (alive flag clear). -/
def deadPaths (cache : List (Nat × Option String × Bool)) : List String :=
  cache.filterMap fun e => if e.2.2 then none else e.2.1

mutual
/-- A structural size of a JSON value, used as a fuel bound for the
parser in the round-trip proof. -/
def sizeV : JVal → Nat
  | .null => 1
  | .jbool _ => 1
  | .jint _ => 1
  | .jstr _ => 1
  | .jarr xs => 1 + sizeE xs
  | .jobj kvs => 1 + sizeM kvs
/-- Size of an element list. -/
def sizeE : List JVal → Nat
  | [] => 1
  | x :: xs => 1 + sizeV x + sizeE xs
/-- Size of a member list. -/
def sizeM : List (List Nat × JVal) → Nat
  | [] => 1
  | (_, v) :: ms => 3 + sizeV v + sizeM ms
end

/-- A remainder that cannot extend a rendered JSON number: empty input
or one of the delimiters comma, `]`, `}` that follow a value inside
`dumps` output. -/
def stopOk : List Nat → Prop
  | [] => True
  | c :: _ => c = 44 ∨ c = 93 ∨ c = 125

/-! # Theorems -/

/-! ## C2 — `Gateway.resume` return value -/

/-- C2: the claim fails as stated — after a frame whose opcode is 0,
`resume` does not return 0: `return op or True` yields Python `True`. -/
theorem c2_resume_counterexample :
    resumeReturn (some 0) ≠ ResumeRet.code 0 ∧ resumeReturn (some 0) = ResumeRet.pyTrue := by
  constructor
  · decide
  · decide

/-- C2 (amended): after sending the opcode-6 resume payload and reading
the next frame, `resume` returns 9 when the frame's opcode is 9 or the
frame is unparseable, returns the opcode when it is nonzero, and returns
Python `True` (not 0) when the opcode is 0. -/
theorem c2_resume_amended (n : Int) :
    resumeReturn none = ResumeRet.code 9 ∧
    resumeReturn (some 9) = ResumeRet.code 9 ∧
    (n ≠ 0 → resumeReturn (some n) = ResumeRet.code n) ∧
    resumeReturn (some 0) = ResumeRet.pyTrue := by
  refine ⟨by decide, by decide, ?_, by decide⟩
  intro hn
  simp [resumeReturn, hn]

/-- C2 amended, instantiated: a frame with opcode 3 is returned as 3. -/
theorem c2_resume_amended_witness : resumeReturn (some 3) = ResumeRet.code 3 :=
  (c2_resume_amended 3).2.2.1 (by decide)

/-! ## C3 — receiver handling of opcode 9 -/

/-- C3: the claim fails as stated — processing an opcode-9 message with
truthy `d` leaves `resumable` false (the claim says true), and with
falsy `d` the loop does not exit (the claim says it exits). -/
theorem c3_receiver_counterexample :
    (runReceiver 41250 [⟨some 9, true, 0, 0⟩]).resumable = false ∧
    (runReceiver 41250 [⟨some 9, true, 0, 0⟩]).exited = true ∧
    (runReceiver 41250 [⟨some 9, false, 0, 0⟩]).exited = false := by
  refine ⟨by decide, by decide, by decide⟩

/-- C3 (amended): on an opcode-9 message the receiver never writes
`resumable` (it keeps its current value, false within an uninterrupted
receiver run), and it exits its loop exactly when the payload field `d`
is truthy; a falsy `d` is ignored and the loop continues. -/
theorem c3_receiver_amended (st : GwState) (msg : GwMsg)
    (hrun : st.exited = false) (hop : msg.opcode = some 9) :
    (receiverStep st msg).resumable = st.resumable ∧
    (receiverStep st msg).exited = msg.dTruthy := by
  cases msg with
  | mk opcode dTruthy interval seq =>
      cases hop
      cases dTruthy <;> simp [receiverStep, hrun]

/-- C3 amended, instantiated at a concrete state and message. -/
theorem c3_receiver_amended_witness :
    (receiverStep ⟨false, none, true, 41250, false⟩ ⟨some 9, true, 0, 0⟩).resumable = false ∧
    (receiverStep ⟨false, none, true, 41250, false⟩ ⟨some 9, true, 0, 0⟩).exited = true :=
  c3_receiver_amended ⟨false, none, true, 41250, false⟩ ⟨some 9, true, 0, 0⟩ rfl rfl

/-! ## C4 — `get_detectable_apps` on 304 -/

/-- C4: on a 304 response with a known etag the function does not
return the existing path — it reads the local `current_time`, which is
assigned only in the 200 branch, and raises `UnboundLocalError`. -/
theorem c4_not_modified_raises (save_dir etag : String) :
    get_detectable_apps save_dir (some etag) DetectableResp.notModified
      = FetchOutcome.unboundLocalError := rfl

/-! ## C5 — heartbeater ready-wait threshold -/

/-- C5: the claim fails as stated — with
`heartbeat_interval_ms = 41250`, a READY that arrives after 200
half-second sleeps (100 s of waiting, far below the claimed
`interval / 10 = 4125` s threshold, i.e. `2 * (41250 / 10)`
half-seconds) still makes the heartbeater abort. -/
theorem c5_ready_wait_counterexample :
    sendHeartbeatAborts 41250 200 = true ∧ 200 < 2 * (41250 / 10) := by
  refine ⟨by decide, by decide⟩

/-- The wait loop's abort outcome, with `k` sleeps already taken: it
aborts iff at least one more loop entry happens and the sleep counter
reaches the threshold before readiness. -/
theorem hbWaitGo_iff (interval : Nat) :
    ∀ r k, hbWaitGo interval k r = true ↔ 1 ≤ r ∧ r + k > (interval + 499) / 500 := by
  intro r
  induction r with
  | zero => intro k; simp [hbWaitGo]
  | succ r ih =>
      intro k
      rw [hbWaitGo]
      by_cases habort : 500 * k ≥ interval
      · simp only [if_pos habort, true_iff]
        omega
      · simp only [if_neg habort]
        rw [ih (k + 1)]
        omega

/-- C5 (amended): while `ready` is still false the heartbeater aborts
exactly when READY needs strictly more than `⌈interval / 500⌉`
half-second sleeps — about `heartbeat_interval_ms / 1000` seconds (the
heartbeat interval itself), not `heartbeat_interval_ms / 10` seconds:
the loop sleeps 0.5 s per iteration but advances `sleep_time` by 5, and
compares it against `heartbeat_interval / 100`. -/
theorem c5_ready_wait_amended (interval readyAfter : Nat) :
    sendHeartbeatAborts interval readyAfter = true ↔ readyAfter > (interval + 499) / 500 := by
  rw [sendHeartbeatAborts, hbWaitGo_iff]
  omega

/-! ## C6 — `find_app` os-code eligibility -/

/-- C6: a catalog executable entry can match only under an eligible os
code — under Windows (1) only os code 1 (so never 0 or 2), under Linux
(0) only 0 or 1, under macOS (2) only 2 — and any match requires the
entry's path suffix to be a substring of the lowercased process path. -/
theorem c6_find_app_eligibility (pv : Int) (ap pp : String) :
    (entryMatches 1 (pyLower pp) (pv, ap) = true → pv = 1) ∧
    (entryMatches 0 (pyLower pp) (pv, ap) = true → pv = 0 ∨ pv = 1) ∧
    (entryMatches 2 (pyLower pp) (pv, ap) = true → pv = 2) ∧
    ∀ mp, entryMatches mp (pyLower pp) (pv, ap) = true →
      pyContains (pyLower pp) ap = true := by
  refine ⟨?_, ?_, ?_, ?_⟩
  · intro h
    simp [entryMatches, entryEligible] at h
    exact h.1.2
  · intro h
    simp [entryMatches, entryEligible] at h
    exact h.1.2
  · intro h
    simp [entryMatches, entryEligible] at h
    exact h.1.2
  · intro mp h
    simp [entryMatches] at h
    exact h.2

/-- C6, instantiated: a Windows-code entry `/foo.exe` matching a Wine
process path under Linux eligibility, with the substring conclusion. -/
theorem c6_find_app_eligibility_witness :
    entryMatches 0 (pyLower "/home/u/Games/Foo.exe") ((1 : Int), "/foo.exe") = true ∧
    pyContains (pyLower "/home/u/Games/Foo.exe") "/foo.exe" = true :=
  ⟨by decide, (c6_find_app_eligibility 1 "/foo.exe" "/home/u/Games/Foo.exe").2.2.2 0 (by decide)⟩

/-! ## C9 — first non-null activity is not rate-limited -/

/-- C9: the first frame of the command loop carrying a truthy (non-null,
non-empty) activity is not short-circuited by the rate limiter —
`last_sent_time` starts `GATEWAY_RATE_LIMIT + 1 = 6` seconds in the
past, and the gap for a payload differing from the initial
`prev_activity = None` is `GATEWAY_RATE_LIMIT = 5` seconds — so its
events are exactly the normalization entry (and the publish); moreover
a truthy `SET_ACTIVITY` payload reaches the normalization path from any
loop state. -/
theorem c9_first_activity {α : Type} [DecidableEq α] (atruthy : α → Bool)
    (t0 t1 : Int) (a : α) (hA : Bool) (rest : List (Int × Frame α))
    (hmono : t0 ≤ t1) (htr : atruthy a = true) :
    (clientTrace atruthy t0 ((t1, .set (some a) hA) :: rest)).head?
      = some (ClientEvent.normalize :: if hA then [ClientEvent.publish] else []) ∧
    ∀ (st : CState α) (now : Int),
      ClientEvent.normalize ∈ (clientStep atruthy st now (.set (some a) hA)).2 := by
  constructor
  · have hnl : ¬ (t1 - (t0 - (GATEWAY_RATE_LIMIT + 1)) < GATEWAY_RATE_LIMIT) := by
      simp only [GATEWAY_RATE_LIMIT]
      omega
    simp [clientTrace, runClient, clientStep, hnl, htr]
  · intro st now
    simp only [clientStep]
    by_cases hlim : now - st.sent <
        (if (some a : Option α) = st.prev then GATEWAY_RATE_LIMIT_SAME else GATEWAY_RATE_LIMIT)
    · simp [hlim, htr]
    · simp [hlim, htr]

/-- C9, instantiated: a handshake at `t0 = 100` followed by a first
`SET_ACTIVITY` frame at `t = 103` with a truthy payload. -/
theorem c9_first_activity_witness :
    (clientTrace (α := Nat) (fun _ => true) 100 [(103, .set (some 7) true)]).head?
      = some [ClientEvent.normalize, ClientEvent.publish] :=
  (c9_first_activity (α := Nat) (fun _ => true) 100 103 7 true [] (by decide) rfl).1

/-! ## C1 — rate-limited frames are still normalized and published -/

/-- C1: the claim is broken by the code — the rate-limit branch sends
the echo but does not skip the rest of the iteration (there is no
`continue` after line 208), so a frame arriving within the gap is both
echoed and published.  First trace: a null activity at `t = 0` enters
the branch (`None == None`, gap 60 s, 6 s elapsed) and a second frame
at `t = 1` with a fresh payload enters it again (gap 5 s, 1 s elapsed)
yet still reaches normalization and publish.  Second trace: two
different payloads 1 s apart are both published, violating the claimed
5 s spacing between publishes. -/
theorem c1_rate_limited_frame_still_published :
    clientTrace (α := Nat) (fun _ => true) 0
        [(0, .set none true), (1, .set (some 7) true)]
      = [[.echoLimited], [.echoLimited, .normalize, .publish]] ∧
    clientTrace (α := Nat) (fun _ => true) 0
        [(0, .set (some 1) true), (1, .set (some 2) true)]
      = [[.normalize, .publish], [.normalize, .publish]] := by
  constructor
  · decide
  · decide

/-! ## C10 — unmatched image assets are dropped -/

/-- Every key in the rebuilt assets dict is a key of the input dict. -/
theorem processAssets_key_mem {external : Bool} {getExt : String → Option String}
    {rpc_assets : List (String × String)} :
    ∀ (assets : List (String × String)) (k w : String),
      (k, w) ∈ processAssets external getExt rpc_assets assets →
      k ∈ assets.map Prod.fst
  | [], _, _, h => by simp [processAssets] at h
  | (k', v') :: rest, k, w, h => by
      simp only [List.map_cons, List.mem_cons]
      simp only [processAssets] at h
      by_cases h1 : pySlice v' 8 = "https://"
      · rw [if_pos h1] at h
        rcases List.mem_append.1 h with hh | ht
        · exact Or.inl (by revert hh; split <;> intro hh <;> simp_all)
        · exact Or.inr (processAssets_key_mem rest k w ht)
      · rw [if_neg h1] at h
        by_cases h2 : pyContains k' "image" = true
        · rw [if_pos h2] at h
          rcases List.mem_append.1 h with hh | ht
          · exact Or.inl (by revert hh; split <;> intro hh <;> simp_all)
          · exact Or.inr (processAssets_key_mem rest k w ht)
        · rw [if_neg h2] at h
          by_cases h3 : DISCORD_ASSETS_WHITELIST.contains k' = true
          · rw [if_pos h3] at h
            rcases List.mem_cons.1 h with hh | ht
            · exact Or.inl (congrArg Prod.fst hh)
            · exact Or.inr (processAssets_key_mem rest k w ht)
          · rw [if_neg h3] at h
            exact Or.inr (processAssets_key_mem rest k w h)

/-- A pair produced from a nonempty assets dict either comes from its
first key or from the rest of the walk. -/
theorem processAssets_cons (external : Bool) (getExt : String → Option String)
    (rpc_assets : List (String × String)) (k' v' : String)
    (rest : List (String × String)) (p : String × String)
    (hp : p ∈ processAssets external getExt rpc_assets ((k', v') :: rest)) :
    p.1 = k' ∨ p ∈ processAssets external getExt rpc_assets rest := by
  simp only [processAssets] at hp
  by_cases h1 : pySlice v' 8 = "https://"
  · rw [if_pos h1] at hp
    rcases List.mem_append.1 hp with hh | ht
    · exact Or.inl (by revert hh; split <;> intro hh <;> simp_all)
    · exact Or.inr ht
  · rw [if_neg h1] at hp
    by_cases h2 : pyContains k' "image" = true
    · rw [if_pos h2] at hp
      rcases List.mem_append.1 hp with hh | ht
      · exact Or.inl (by revert hh; split <;> intro hh <;> simp_all)
      · exact Or.inr ht
    · rw [if_neg h2] at hp
      by_cases h3 : DISCORD_ASSETS_WHITELIST.contains k' = true
      · rw [if_pos h3] at hp
        rcases List.mem_cons.1 hp with hh | ht
        · exact Or.inl (by simp [hh])
        · exact Or.inr ht
      · rw [if_neg h3] at hp
        exact Or.inr hp

/-- C10: during normalization, an assets key whose value is not an
`https://` link, whose key contains the substring `image`, and whose
value matches no declared asset name, is absent from the rebuilt assets
dict (the whitelist pass-through is unreachable for such keys because
the `image` arm is an `elif` ahead of it). -/
theorem c10_unmatched_image_asset_dropped (external : Bool)
    (getExt : String → Option String) (rpc_assets : List (String × String)) :
    ∀ (assets : List (String × String)) (k v : String),
      (k, v) ∈ assets → (assets.map Prod.fst).Nodup →
      ¬ pySlice v 8 = "https://" → pyContains k "image" = true →
      (∀ a ∈ rpc_assets, ¬ a.2 = v) →
      ∀ w, (k, w) ∉ processAssets external getExt rpc_assets assets
  | [], k, v, hmem, _, _, _, _, _ => by simp at hmem
  | (k', v') :: rest, k, v, hmem, hnodup, hhttps, himg, hnames, w => by
      rw [List.map_cons, List.nodup_cons] at hnodup
      have hnd := hnodup
      intro hout
      rcases List.mem_cons.1 hmem with hhead | htail
      · rw [Prod.mk.injEq] at hhead
        obtain ⟨hk, hv⟩ := hhead
        have hses : ¬ pySlice v' 8 = "https://" := hv ▸ hhttps
        have himg' : pyContains k' "image" = true := hk ▸ himg
        simp only [processAssets, if_neg hses, if_pos himg'] at hout
        have hfind : rpc_assets.find? (fun a => a.2 == v') = none := by
          rw [List.find?_eq_none]
          intro a ha
          have := hnames a ha
          simp only [beq_eq_false_iff_ne, ne_eq, Bool.not_eq_true]
          rw [← hv]
          simp [this]
        rw [hfind] at hout
        simp only [List.nil_append] at hout
        exact hnd.1 (hk ▸ processAssets_key_mem rest k w hout)
      · have hkrest : k ∈ rest.map Prod.fst := List.mem_map_of_mem Prod.fst htail
        rcases processAssets_cons external getExt rpc_assets k' v' rest (k, w) hout with
          hkey | hrest
        · exact hnd.1 (hkey ▸ hkrest)
        · exact c10_unmatched_image_asset_dropped external getExt rpc_assets rest k v
            htail hnd.2 hhttps himg hnames w hrest

/-- C10, instantiated: the image key naming the undeclared asset
`nope` maps to nothing at all in the rebuilt assets dict. -/
theorem c10_unmatched_image_asset_dropped_witness :
    ("small_image", "nope") ∉ processAssets false (fun _ => none) [("111", "logo")]
        [("large_image", "logo"), ("small_image", "nope")] :=
  c10_unmatched_image_asset_dropped false (fun _ => none) [("111", "logo")]
    [("large_image", "logo"), ("small_image", "nope")] "small_image" "nope"
    (by decide) (by decide) (by decide) (by decide)
    (by intro a ha; simp at ha; simp [ha]) "nope"

/-! ## C7 — scanner diff bookkeeping -/

/-- C7: the claim fails as stated — one pass over two fresh pids that
share the path `a` reports `added = [a]` once (deduplication is by
path), but the PID-keyed cache then stores `a` twice, so the multiset
difference `added - removed` differs from the cache's path multiset. -/
theorem c7_multiset_counterexample :
    (((runScanner [] [[(1, some "a"), (2, some "a")]]).2.1 : Multiset String)
        - ((runScanner [] [[(1, some "a"), (2, some "a")]]).2.2 : Multiset String))
      ≠ ((cachePaths (runScanner [] [[(1, some "a"), (2, some "a")]]).1 : List String) :
          Multiset String) := by
  decide

/-- Unfolding `cachePaths` over a cons. -/
theorem cachePaths_cons (e : Nat × Option String × Bool)
    (l : List (Nat × Option String × Bool)) :
    cachePaths (e :: l)
      = (match e.2.1 with | some p => [p] | none => []) ++ cachePaths l := by
  cases h : e.2.1 <;> simp [cachePaths, List.filterMap_cons, h]

/-- `markAlive` changes no stored path. -/
theorem markAlive_paths (cache : List (Nat × Option String × Bool)) (pid : Nat) :
    cachePaths (markAlive cache pid) = cachePaths cache := by
  induction cache with
  | nil => rfl
  | cons e rest ih =>
      have hhead : markAlive (e :: rest) pid
          = (if e.1 = pid then (e.1, e.2.1, true) else e) :: markAlive rest pid := rfl
      rw [hhead, cachePaths_cons, cachePaths_cons, ih]
      by_cases hp : e.1 = pid <;> simp [hp]

/-- `markAlive` changes no pid. -/
theorem markAlive_pids (cache : List (Nat × Option String × Bool)) (pid : Nat) :
    cachePids (markAlive cache pid) = cachePids cache := by
  induction cache with
  | nil => rfl
  | cons e rest ih =>
      have hhead : markAlive (e :: rest) pid
          = (if e.1 = pid then (e.1, e.2.1, true) else e) :: markAlive rest pid := rfl
      have h1 : cachePids (((if e.1 = pid then (e.1, e.2.1, true) else e)) :: markAlive rest pid)
          = (if e.1 = pid then (e.1, e.2.1, true) else e).1 :: cachePids (markAlive rest pid) := rfl
      rw [hhead, h1, ih]
      by_cases hp : e.1 = pid <;> simp [hp, cachePids]

/-- The cache-hit test of the `/proc` loop is pid membership. -/
theorem any_pid_iff (cache : List (Nat × Option String × Bool)) (pid : Nat) :
    (cache.any fun e => e.1 = pid) = true ↔ pid ∈ cachePids cache := by
  simp only [List.any_eq_true, decide_eq_true_eq, cachePids, List.mem_map]

/-- `newPaths` reads the cache only through its pids. -/
theorem newPaths_congr {c c' : List (Nat × Option String × Bool)}
    (h : cachePids c = cachePids c') (l : List (Nat × Option String)) :
    newPaths c l = newPaths c' l := by
  simp [newPaths, h]

/-- Unfolding `newPaths` over a cons. -/
theorem newPaths_cons (c : List (Nat × Option String × Bool))
    (pr : Nat × Option String) (rest : List (Nat × Option String)) :
    newPaths c (pr :: rest)
      = (if pr.1 ∈ cachePids c then [] else pr.2.toList) ++ newPaths c rest := by
  by_cases hin : pr.1 ∈ cachePids c
  · simp [newPaths, List.filterMap_cons, hin]
  · cases h2 : pr.2 <;> simp [newPaths, List.filterMap_cons, hin, h2]

/-- Appending a cache entry whose pid does not occur in the listing does
not change the listing's fresh paths. -/
theorem newPaths_append_entry {pid : Nat} {x : Option String} {b : Bool}
    (cache : List (Nat × Option String × Bool)) :
    ∀ (l : List (Nat × Option String)), pid ∉ l.map Prod.fst →
      newPaths (cache ++ [(pid, x, b)]) l = newPaths cache l
  | [], _ => rfl
  | pr :: rest, hl => by
      have hne : ¬ pr.1 = pid := fun he => hl (by simp [he])
      have hrest : pid ∉ rest.map Prod.fst := fun hm => hl (by simp [hm])
      have ih := @newPaths_append_entry pid x b cache rest hrest
      rw [newPaths_cons, newPaths_cons, ih]
      have hmem : (pr.1 ∈ cachePids (cache ++ [(pid, x, b)])) ↔ pr.1 ∈ cachePids cache := by
        simp [cachePids, hne]
      by_cases hin : pr.1 ∈ cachePids cache
      · rw [if_pos hin, if_pos (hmem.2 hin)]
      · rw [if_neg hin, if_neg (fun hx => hin (hmem.1 hx))]

/-- Paths of a concatenated cache. -/
theorem cachePaths_append (c d : List (Nat × Option String × Bool)) :
    cachePaths (c ++ d) = cachePaths c ++ cachePaths d := by
  simp [cachePaths]

/-- The `/proc` loop appends exactly the listing's fresh paths to the
cache and reports them in `added`, provided they are pairwise distinct
and distinct from the cached and already-reported ones (so the
duplication guard never fires). -/
theorem procPassAdd_spec :
    ∀ (listing : List (Nat × Option String)) (cache : List (Nat × Option String × Bool))
      (added : List String),
      (listing.map Prod.fst).Nodup →
      (newPaths cache listing).Nodup →
      (∀ q ∈ newPaths cache listing, q ∉ added) →
      cachePaths (procPassAdd cache added listing).1
          = cachePaths cache ++ newPaths cache listing ∧
        (procPassAdd cache added listing).2 = added ++ newPaths cache listing
  | [], cache, added, _, _, _ => by simp [procPassAdd, newPaths]
  | (pid, res) :: rest, cache, added, hpids, hnew, hadd => by
      rw [List.map_cons, List.nodup_cons] at hpids
      by_cases hin : pid ∈ cachePids cache
      · have hany : (cache.any fun e => e.1 = pid) = true := (any_pid_iff _ _).2 hin
        have hnp : newPaths cache ((pid, res) :: rest) = newPaths cache rest := by
          rw [newPaths_cons, if_pos hin, List.nil_append]
        have hcongr : newPaths (markAlive cache pid) rest = newPaths cache rest :=
          newPaths_congr (markAlive_pids cache pid) rest
        have ih := procPassAdd_spec rest (markAlive cache pid) added hpids.2
          (by rw [hcongr]; exact hnp ▸ hnew)
          (by rw [hcongr]; exact fun q hq => hadd q (hnp ▸ hq))
        simp only [procPassAdd, if_pos hany]
        rw [hnp, ih.1, ih.2, markAlive_paths, hcongr]
        exact ⟨rfl, rfl⟩
      · have hany : ¬ (cache.any fun e => e.1 = pid) = true :=
          fun hx => hin ((any_pid_iff _ _).1 hx)
        cases res with
        | none =>
            have hnp : newPaths cache ((pid, none) :: rest) = newPaths cache rest := by
              rw [newPaths_cons, if_neg hin]
              rfl
            have happ : newPaths (cache ++ [(pid, none, true)]) rest
                = newPaths cache rest := newPaths_append_entry cache rest hpids.1
            have ih := procPassAdd_spec rest (cache ++ [(pid, none, true)]) added hpids.2
              (by rw [happ]; exact hnp ▸ hnew)
              (by rw [happ]; exact fun q hq => hadd q (hnp ▸ hq))
            simp only [procPassAdd, if_neg hany]
            rw [hnp, ih.1, ih.2, cachePaths_append, happ]
            constructor
            · simp [cachePaths]
            · rfl
        | some p =>
            have hphead : p ∈ newPaths cache ((pid, some p) :: rest) := by
              rw [newPaths_cons, if_neg hin]
              simp
            have hnp : newPaths cache ((pid, some p) :: rest)
                = p :: newPaths cache rest := by
              rw [newPaths_cons, if_neg hin]
              rfl
            have hpadd : p ∉ added := hadd p hphead
            have hpnew : p ∉ newPaths cache rest := by
              rw [hnp] at hnew
              exact (List.nodup_cons.1 hnew).1
            have happ : newPaths (cache ++ [(pid, some p, true)]) rest
                = newPaths cache rest := newPaths_append_entry cache rest hpids.1
            have ih := procPassAdd_spec rest (cache ++ [(pid, some p, true)])
              (added ++ [p]) hpids.2
              (by rw [happ]; exact (List.nodup_cons.1 (hnp ▸ hnew)).2)
              (by
                rw [happ]
                intro q hq hq2
                rcases List.mem_append.1 hq2 with h | h
                · exact hadd q (hnp ▸ List.mem_cons_of_mem _ hq) h
                · rw [List.mem_singleton] at h
                  exact hpnew (h ▸ hq))
            simp only [procPassAdd, if_neg hany]
            rw [if_neg hpadd, hnp, ih.1, ih.2, cachePaths_append, happ]
            constructor
            · simp [cachePaths]
            · simp

/-- The cleanup loop reports exactly the dead entries' paths (appended
to the accumulator) and keeps exactly the alive entries' paths, given
distinct cached paths so its duplication guard never fires. -/
theorem procPassSweep_spec :
    ∀ (cache : List (Nat × Option String × Bool)) (acc : List String),
      (cachePaths cache).Nodup →
      (∀ p ∈ cachePaths cache, p ∉ acc) →
      (procPassSweep cache acc).2 = acc ++ deadPaths cache ∧
        cachePaths (procPassSweep cache acc).1 = alivePaths cache
  | [], acc, _, _ => by simp [procPassSweep, deadPaths, alivePaths, cachePaths]
  | (pid, po, alive) :: rest, acc, hnd, hdisj => by
      rw [cachePaths_cons] at hnd hdisj
      cases alive with
      | true =>
          have hstep : procPassSweep ((pid, po, true) :: rest) acc
              = ((pid, po, false) :: (procPassSweep rest acc).1,
                 (procPassSweep rest acc).2) := rfl
          have hnd' : (cachePaths rest).Nodup := by
            cases po <;> simp at hnd
            · exact hnd
            · exact hnd.2
          have hdisj' : ∀ p ∈ cachePaths rest, p ∉ acc := by
            intro p hp
            exact hdisj p (by cases po <;> simp [hp])
          have ih := procPassSweep_spec rest acc hnd' hdisj'
          rw [hstep]
          refine ⟨ih.1.trans ?_, ?_⟩
          · cases po <;> simp [deadPaths, List.filterMap_cons]
          · rw [cachePaths_cons, ih.2]
            cases po <;> simp [alivePaths, List.filterMap_cons]
      | false =>
          cases po with
          | none =>
              have hstep : procPassSweep ((pid, none, false) :: rest) acc
                  = procPassSweep rest acc := rfl
              have ih := procPassSweep_spec rest acc (by simpa using hnd)
                (fun p hp => hdisj p (by simp [hp]))
              rw [hstep]
              refine ⟨ih.1.trans ?_, ?_⟩
              · simp [deadPaths, List.filterMap_cons]
              · rw [ih.2]
                simp [alivePaths, List.filterMap_cons]
          | some p =>
              simp only [List.singleton_append, List.nodup_cons] at hnd
              have hpacc : p ∉ acc := hdisj p (by simp)
              have hstep : procPassSweep ((pid, some p, false) :: rest) acc
                  = procPassSweep rest (if p ∈ acc then acc else acc ++ [p]) := rfl
              have ih := procPassSweep_spec rest (acc ++ [p]) hnd.2
                (by
                  intro q hq hq2
                  rcases List.mem_append.1 hq2 with h | h
                  · exact hdisj q (by simp [hq]) h
                  · rw [List.mem_singleton] at h
                    exact hnd.1 (h ▸ hq))
              rw [hstep, if_neg hpacc]
              refine ⟨ih.1.trans ?_, ?_⟩
              · simp [deadPaths, List.filterMap_cons]
              · rw [ih.2]
                simp [alivePaths, List.filterMap_cons]

/-- Every cached path is an alive path or a dead path. -/
theorem alive_dead_perm :
    ∀ cache : List (Nat × Option String × Bool),
      (cachePaths cache).Perm (alivePaths cache ++ deadPaths cache)
  | [] => by simp [cachePaths, alivePaths, deadPaths]
  | (pid, po, al) :: rest => by
      have ih := alive_dead_perm rest
      cases al
      · cases po
        · exact ih
        · exact (ih.cons _).trans List.perm_middle.symm
      · cases po
        · exact ih
        · exact ih.cons _

/-- The multiset form of `alive_dead_perm`. -/
theorem alive_dead_split (cache : List (Nat × Option String × Bool)) :
    (cachePaths cache : Multiset String)
      = (alivePaths cache : Multiset String) + (deadPaths cache : Multiset String) := by
  have h := Multiset.coe_eq_coe.2 (alive_dead_perm cache)
  simpa using h

/-- The alive paths form a sublist of all cached paths. -/
theorem alivePaths_sublist :
    ∀ cache : List (Nat × Option String × Bool),
      List.Sublist (alivePaths cache) (cachePaths cache)
  | [] => List.Sublist.slnil
  | (pid, po, al) :: rest => by
      have ih := alivePaths_sublist rest
      cases al
      · cases po
        · exact ih
        · exact ih.cons _
      · cases po
        · exact ih
        · exact ih.cons₂ _

/-- The running multiset invariant of the scanner: everything ever
added, plus what the cache held at the start, is everything ever
removed plus what the cache holds now. -/
theorem runScanner_invariant :
    ∀ (passes : List (List (Nat × Option String)))
      (cache : List (Nat × Option String × Bool)),
      (cachePaths cache).Nodup → okTrace cache passes →
      ((runScanner cache passes).2.1 : Multiset String) + (cachePaths cache : Multiset String)
        = ((runScanner cache passes).2.2 : Multiset String)
          + (cachePaths (runScanner cache passes).1 : Multiset String)
  | [], cache, _, _ => by simp [runScanner]
  | l :: ls, cache, hnd, hok => by
      obtain ⟨hstep, htrace⟩ := hok
      obtain ⟨hlpids, hlnew, hldisj⟩ := hstep
      have hadd := procPassAdd_spec l cache [] hlpids hlnew (by intro q hq; simp)
      have hnd1 : (cachePaths (procPassAdd cache [] l).1).Nodup := by
        rw [hadd.1]
        exact List.Nodup.append hnd hlnew
          (List.disjoint_right.2 fun q hq => hldisj q hq)
      have hs := procPassSweep_spec (procPassAdd cache [] l).1 [] hnd1 (by simp)
      have hnd2 : (cachePaths (procPassSweep (procPassAdd cache [] l).1 []).1).Nodup := by
        rw [hs.2]
        exact (alivePaths_sublist _).nodup hnd1
      have ih := runScanner_invariant ls
        (procPassSweep (procPassAdd cache [] l).1 []).1 hnd2 htrace
      have hruns : runScanner cache (l :: ls)
          = ((runScanner (get_user_processes_diff_linux cache l).1 ls).1,
             (get_user_processes_diff_linux cache l).2.1
               ++ (runScanner (get_user_processes_diff_linux cache l).1 ls).2.1,
             (get_user_processes_diff_linux cache l).2.2
               ++ (runScanner (get_user_processes_diff_linux cache l).1 ls).2.2) := rfl
      have hdiff : get_user_processes_diff_linux cache l
          = ((procPassSweep (procPassAdd cache [] l).1 []).1,
             (procPassAdd cache [] l).2,
             (procPassSweep (procPassAdd cache [] l).1 []).2) := rfl
      rw [hruns, hdiff]
      simp only
      rw [hadd.2, hs.1]
      simp only [List.nil_append]
      have e1 : (cachePaths cache : Multiset String) + (newPaths cache l : Multiset String)
          = (cachePaths (procPassAdd cache [] l).1 : Multiset String) := by
        rw [hadd.1]
        simp
      have e2 := alive_dead_split (procPassAdd cache [] l).1
      have e3 : ((runScanner (procPassSweep (procPassAdd cache [] l).1 []).1 ls).2.1 :
            Multiset String)
            + (alivePaths (procPassAdd cache [] l).1 : Multiset String)
          = ((runScanner (procPassSweep (procPassAdd cache [] l).1 []).1 ls).2.2 :
              Multiset String)
            + (cachePaths
                (runScanner (procPassSweep (procPassAdd cache [] l).1 []).1 ls).1 :
                Multiset String) := by
        rw [← hs.2]
        exact ih
      calc (newPaths cache l : Multiset String)
            + ((runScanner (procPassSweep (procPassAdd cache [] l).1 []).1 ls).2.1 :
                Multiset String)
            + (cachePaths cache : Multiset String)
          = ((runScanner (procPassSweep (procPassAdd cache [] l).1 []).1 ls).2.1 :
                Multiset String)
            + ((cachePaths cache : Multiset String) + (newPaths cache l : Multiset String)) := by
            abel
        _ = ((runScanner (procPassSweep (procPassAdd cache [] l).1 []).1 ls).2.1 :
                Multiset String)
            + ((alivePaths (procPassAdd cache [] l).1 : Multiset String)
              + (deadPaths (procPassAdd cache [] l).1 : Multiset String)) := by
            rw [e1, e2]
        _ = (((runScanner (procPassSweep (procPassAdd cache [] l).1 []).1 ls).2.1 :
                Multiset String)
            + (alivePaths (procPassAdd cache [] l).1 : Multiset String))
            + (deadPaths (procPassAdd cache [] l).1 : Multiset String) := by
            abel
        _ = (((runScanner (procPassSweep (procPassAdd cache [] l).1 []).1 ls).2.2 :
                Multiset String)
            + (cachePaths
                (runScanner (procPassSweep (procPassAdd cache [] l).1 []).1 ls).1 :
                Multiset String))
            + (deadPaths (procPassAdd cache [] l).1 : Multiset String) := by
            rw [e3]
        _ = (deadPaths (procPassAdd cache [] l).1 : Multiset String)
            + ((runScanner (procPassSweep (procPassAdd cache [] l).1 []).1 ls).2.2 :
                Multiset String)
            + (cachePaths
                (runScanner (procPassSweep (procPassAdd cache [] l).1 []).1 ls).1 :
                Multiset String) := by
            abel

/-- C7 (amended): starting from an empty cache, and provided no two
simultaneously listed or cached processes ever share a derived path (so
the per-pass path deduplication never collapses anything), the multiset
of paths ever reported in `added` minus the multiset ever reported in
`removed` equals the multiset of non-null paths in the PID-keyed cache.
The unamended claim fails when two pids share one path: dedup reports
the path once while the cache stores it per pid. -/
theorem c7_scanner_diff_amended (passes : List (List (Nat × Option String)))
    (hok : okTrace [] passes) :
    ((runScanner [] passes).2.1 : Multiset String)
        - ((runScanner [] passes).2.2 : Multiset String)
      = (cachePaths (runScanner [] passes).1 : Multiset String) := by
  have h := runScanner_invariant passes [] (by simp [cachePaths]) hok
  simp only [cachePaths, List.filterMap_nil, Multiset.coe_nil, add_zero] at h
  rw [h]
  exact add_tsub_cancel_left _ _

/-- C7 amended, instantiated: two collision-free passes where pid 1
disappears in the second pass. -/
theorem c7_scanner_diff_amended_witness :
    ((runScanner [] [[(1, some "pa"), (2, some "pb")], [(2, some "pb")]]).2.1 :
        Multiset String)
        - ((runScanner [] [[(1, some "pa"), (2, some "pb")], [(2, some "pb")]]).2.2 :
            Multiset String)
      = (cachePaths
          (runScanner [] [[(1, some "pa"), (2, some "pb")], [(2, some "pb")]]).1 :
          Multiset String) :=
  c7_scanner_diff_amended [[(1, some "pa"), (2, some "pb")], [(2, some "pb")]]
    ⟨⟨by decide, by decide, by decide⟩, ⟨by decide, by decide, by decide⟩, trivial⟩

/-! ## C8 — framing and JSON codec round trip -/

/-- The decimal digits of `n` are digit characters. -/
theorem natDec_digits (n : Nat) : ∀ c ∈ natDec n, isDig c = true := by
  induction n using Nat.strong_induction_on with
  | _ n ih =>
      rw [natDec]
      by_cases h : n < 10
      · simp only [dif_pos h]
        intro c hc
        rw [List.mem_singleton] at hc
        subst hc
        simp [isDig]
        omega
      · simp only [dif_neg h]
        intro c hc
        rcases List.mem_append.1 hc with h1 | h1
        · exact ih (n / 10) (Nat.div_lt_self (by omega) (by omega)) c h1
        · rw [List.mem_singleton] at h1
          subst h1
          simp [isDig]
          omega

/-- A digit run is never empty. -/
theorem natDec_ne_nil (n : Nat) : natDec n ≠ [] := by
  rw [natDec]
  by_cases h : n < 10
  · simp [h]
  · simp only [dif_neg h]
    simp

/-- Of a positive number, the leading digit is 1–9. -/
theorem natDec_head_pos (n : Nat) (hn : 0 < n) :
    ∃ c t, natDec n = c :: t ∧ 49 ≤ c ∧ c ≤ 57 := by
  induction n using Nat.strong_induction_on with
  | _ n ih =>
      rw [natDec]
      by_cases h : n < 10
      · exact ⟨48 + n, [], by simp [h], by omega, by omega⟩
      · obtain ⟨c, t, hct, hc1, hc2⟩ :=
          ih (n / 10) (Nat.div_lt_self (by omega) (by omega)) (by omega)
        exact ⟨c, t ++ [48 + n % 10], by simp [h, hct], hc1, hc2⟩

/-- `takeDigs` stops at once on a non-digit head (or empty input). -/
theorem takeDigs_stop {s : List Nat} (h : ∀ c t, s = c :: t → isDig c = false) :
    takeDigs s = ([], s) := by
  cases s with
  | nil => rfl
  | cons c t => simp [takeDigs, h c t rfl]

/-- `takeDigs` consumes exactly a leading digit run. -/
theorem takeDigs_run :
    ∀ (ds : List Nat), (∀ c ∈ ds, isDig c = true) →
      ∀ {rest : List Nat}, takeDigs rest = ([], rest) →
      takeDigs (ds ++ rest) = (ds, rest)
  | [], _, rest, hrest => by simpa using hrest
  | c :: t, hds, rest, hrest => by
      have hc : isDig c = true := hds c (by simp)
      have ht := takeDigs_run t (fun x hx => hds x (by simp [hx])) hrest
      simp [takeDigs, hc, ht]

/-- Reading back the digits of `n` yields `n`. -/
theorem digsVal_natDec (n : Nat) : digsVal (natDec n) = n := by
  induction n using Nat.strong_induction_on with
  | _ n ih =>
      rw [natDec]
      by_cases h : n < 10
      · simp [digsVal, h]
      · simp only [dif_neg h]
        have := ih (n / 10) (Nat.div_lt_self (by omega) (by omega))
        simp only [digsVal, List.foldl_append, List.foldl_cons, List.foldl_nil] at this ⊢
        rw [this]
        omega

/-- After the integer part, a stopper remainder yields the value. -/
theorem pNumTail_stop (neg : Bool) (m : Nat) (rest : List Nat) (hr : stopOk rest) :
    pNum.pNumTail neg m rest = some (.jint (if neg then -(m : Int) else (m : Int)), rest) := by
  cases rest with
  | nil => rfl
  | cons c t =>
      rcases hr with h | h | h <;> subst h <;> rfl

/-- A stopper remainder halts `takeDigs` immediately. -/
theorem takeDigs_stopOk {rest : List Nat} (hr : stopOk rest) :
    takeDigs rest = ([], rest) := by
  refine takeDigs_stop ?_
  intro c t he
  subst he
  rcases hr with h | h | h <;> subst h <;> rfl

/-- Reduction of `pNum` on a head that is not a minus sign. -/
theorem pNum_cons_not45 (c : Nat) (X : List Nat) (h : ¬ c = 45) :
    pNum (c :: X) = pNum.pNumBody false c X := by
  simp [pNum, h]

/-- Reduction of `pNum` after a minus sign. -/
theorem pNum_cons45 (c : Nat) (X : List Nat) :
    pNum (45 :: (c :: X)) = pNum.pNumBody true c X := by
  simp [pNum]

/-- Reduction of the integer-part reader on a digit head. -/
theorem pNumBody_digit (neg : Bool) (c : Nat) (r : List Nat)
    (h48 : ¬ c = 48) (hdig : isDig c = true) :
    pNum.pNumBody neg c r
      = pNum.pNumTail neg (digsVal (c :: (takeDigs r).1)) (takeDigs r).2 := by
  rw [pNum.pNumBody, if_neg h48, if_pos hdig]

/-- Parsing the rendered integer recovers it, before any stopper. -/
theorem pNum_intDec (n : Int) (rest : List Nat) (hr : stopOk rest) :
    pNum (intDec n ++ rest) = some (.jint n, rest) := by
  by_cases hneg : n < 0
  · have hz : ¬ n.natAbs = 0 := by omega
    obtain ⟨c, t, hct, hc1, hc2⟩ := natDec_head_pos n.natAbs (by omega)
    have harg : intDec n ++ rest = 45 :: (c :: (t ++ rest)) := by
      simp [intDec, hneg, hct]
    have htd : takeDigs (t ++ rest) = (t, rest) := by
      have hall : ∀ x ∈ t, isDig x = true := fun x hx =>
        natDec_digits n.natAbs x (by rw [hct]; exact List.mem_cons_of_mem _ hx)
      exact takeDigs_run t hall (takeDigs_stopOk hr)
    have hdv : digsVal (c :: t) = n.natAbs := by
      rw [← hct]
      exact digsVal_natDec n.natAbs
    rw [harg, pNum_cons45,
      pNumBody_digit true c (t ++ rest) (by omega) (by simp [isDig]; omega), htd]
    simp only [hdv, pNumTail_stop true n.natAbs rest hr, if_true]
    have : -(n.natAbs : Int) = n := by omega
    rw [this]
  · by_cases hz : n.natAbs = 0
    · have h0 : natDec 0 = [48] := by rw [natDec]; rfl
      have harg : intDec n ++ rest = 48 :: rest := by
        simp [intDec, hneg, hz, h0]
      rw [harg, pNum_cons_not45 48 rest (by omega), pNum.pNumBody, if_pos rfl,
        pNumTail_stop false 0 rest hr]
      simp only [if_neg (by simp : ¬ (false = true))]
      have : ((0 : Nat) : Int) = n := by omega
      rw [this]
    · obtain ⟨c, t, hct, hc1, hc2⟩ := natDec_head_pos n.natAbs (by omega)
      have harg : intDec n ++ rest = c :: (t ++ rest) := by
        simp [intDec, hneg, hct]
      have htd : takeDigs (t ++ rest) = (t, rest) := by
        have hall : ∀ x ∈ t, isDig x = true := fun x hx =>
          natDec_digits n.natAbs x (by rw [hct]; exact List.mem_cons_of_mem _ hx)
        exact takeDigs_run t hall (takeDigs_stopOk hr)
      have hdv : digsVal (c :: t) = n.natAbs := by
        rw [← hct]
        exact digsVal_natDec n.natAbs
      rw [harg, pNum_cons_not45 c (t ++ rest) (by omega),
        pNumBody_digit false c (t ++ rest) (by omega) (by simp [isDig]; omega), htd]
      simp only [hdv, pNumTail_stop false n.natAbs rest hr]
      simp only [if_neg (by simp : ¬ (false = true))]
      have : (n.natAbs : Int) = n := by omega
      rw [this]

/-- `hexv` inverts `hexDig` on nibbles. -/
theorem hexv_hexDig (d : Nat) (h : d < 16) : hexv (hexDig d) = some d := by
  by_cases h10 : d < 10
  · rw [hexDig, if_pos h10, hexv, if_pos (by omega : 48 ≤ 48 + d ∧ 48 + d ≤ 57)]
    congr 1
    omega
  · rw [hexDig, if_neg h10, hexv, if_neg (by omega : ¬ (48 ≤ 87 + d ∧ 87 + d ≤ 57)),
      if_pos (by omega : 97 ≤ 87 + d ∧ 87 + d ≤ 102)]
    congr 1
    omega

/-- One `\uXXXX` escape outside the high-surrogate range appends its
code point. -/
theorem pStr_u (f : Nat) (acc : List Nat) (a b c d : Nat) (X : List Nat)
    (va vb vc vd : Nat) (ha : hexv a = some va) (hb : hexv b = some vb)
    (hc : hexv c = some vc) (hd : hexv d = some vd)
    (hns : ¬ (55296 ≤ ((va * 16 + vb) * 16 + vc) * 16 + vd
      ∧ ((va * 16 + vb) * 16 + vc) * 16 + vd ≤ 56319)) :
    pStr (f + 1) acc (92 :: 117 :: a :: b :: c :: d :: X)
      = pStr f ((((va * 16 + vb) * 16 + vc) * 16 + vd) :: acc) X := by
  have h1 : pStr (f + 1) acc (92 :: 117 :: a :: b :: c :: d :: X)
      = (match hexv a, hexv b, hexv c, hexv d with
         | some wa, some wb, some wc, some wd =>
             if 55296 ≤ ((wa * 16 + wb) * 16 + wc) * 16 + wd
                 ∧ ((wa * 16 + wb) * 16 + wc) * 16 + wd ≤ 56319 then
               pStrPair f acc (((wa * 16 + wb) * 16 + wc) * 16 + wd) X
             else pStr f ((((wa * 16 + wb) * 16 + wc) * 16 + wd) :: acc) X
         | _, _, _, _ => none) := rfl
  rw [h1, ha, hb, hc, hd]
  simp only [if_neg hns]

/-- A `\uXXXX` escape in the high-surrogate range hands over to the
pair look-ahead. -/
theorem pStr_u_high (f : Nat) (acc : List Nat) (a b c d : Nat) (X : List Nat)
    (va vb vc vd : Nat) (ha : hexv a = some va) (hb : hexv b = some vb)
    (hc : hexv c = some vc) (hd : hexv d = some vd)
    (hhi : 55296 ≤ ((va * 16 + vb) * 16 + vc) * 16 + vd
      ∧ ((va * 16 + vb) * 16 + vc) * 16 + vd ≤ 56319) :
    pStr (f + 1) acc (92 :: 117 :: a :: b :: c :: d :: X)
      = pStrPair f acc (((va * 16 + vb) * 16 + vc) * 16 + vd) X := by
  have h1 : pStr (f + 1) acc (92 :: 117 :: a :: b :: c :: d :: X)
      = (match hexv a, hexv b, hexv c, hexv d with
         | some wa, some wb, some wc, some wd =>
             if 55296 ≤ ((wa * 16 + wb) * 16 + wc) * 16 + wd
                 ∧ ((wa * 16 + wb) * 16 + wc) * 16 + wd ≤ 56319 then
               pStrPair f acc (((wa * 16 + wb) * 16 + wc) * 16 + wd) X
             else pStr f ((((wa * 16 + wb) * 16 + wc) * 16 + wd) :: acc) X
         | _, _, _, _ => none) := rfl
  rw [h1, ha, hb, hc, hd]
  simp only [if_pos hhi]

/-- The pair look-ahead combines a following low-surrogate escape into
the astral code point. -/
theorem pStrPair_low (f : Nat) (acc : List Nat) (u e2 f2 g2 h2 : Nat) (X : List Nat)
    (ve vf vg vh : Nat)
    (he : hexv e2 = some ve) (hf : hexv f2 = some vf)
    (hg : hexv g2 = some vg) (hh : hexv h2 = some vh)
    (hlo : 56320 ≤ ((ve * 16 + vf) * 16 + vg) * 16 + vh
      ∧ ((ve * 16 + vf) * 16 + vg) * 16 + vh ≤ 57343) :
    pStrPair (f + 1) acc u (92 :: 117 :: e2 :: f2 :: g2 :: h2 :: X)
      = pStr f ((65536 + (u - 55296) * 1024
          + (((ve * 16 + vf) * 16 + vg) * 16 + vh - 56320)) :: acc) X := by
  have h1 : pStrPair (f + 1) acc u (92 :: 117 :: e2 :: f2 :: g2 :: h2 :: X)
      = (match hexv e2, hexv f2, hexv g2, hexv h2 with
         | some we, some wf, some wg, some wh =>
             if 56320 ≤ ((we * 16 + wf) * 16 + wg) * 16 + wh
                 ∧ ((we * 16 + wf) * 16 + wg) * 16 + wh ≤ 57343 then
               pStr f ((65536 + (u - 55296) * 1024
                 + (((we * 16 + wf) * 16 + wg) * 16 + wh - 56320)) :: acc) X
             else pStr f (u :: acc) (92 :: 117 :: e2 :: f2 :: g2 :: h2 :: X)
         | _, _, _, _ => none) := rfl
  rw [h1, he, hf, hg, hh]
  simp only [if_pos hlo]

set_option maxHeartbeats 1000000 in
/-- Reduction of `pStr` on an unescaped literal character. -/
theorem pStr_lit (f : Nat) (acc : List Nat) (c : Nat) (X : List Nat)
    (h34 : ¬ c = 34) (h92 : ¬ c = 92) (h32 : ¬ c < 32) :
    pStr (f + 1) acc (c :: X) = pStr f (c :: acc) X := by
  simp only [pStr]
  rw [if_neg h34, if_neg h92, if_neg h32]

/-- Scanning an escaped string body recovers the original code points:
`pStr` inverts `escStr` up to the closing quote. -/
theorem pStr_escape :
    ∀ (s : List Nat) (fuel : Nat) (acc rest : List Nat),
      wfStr s = true → (escStr s).length < fuel →
      pStr fuel acc (escStr s ++ 34 :: rest) = some (acc.reverse ++ s, rest)
  | [], fuel, acc, rest, _, hf => by
      obtain ⟨f, rfl⟩ : ∃ f, fuel = f + 1 := ⟨fuel - 1, by omega⟩
      show pStr (f + 1) acc (34 :: rest) = some (acc.reverse ++ [], rest)
      simp [pStr]
  | c :: s', fuel, acc, rest, hwf, hf => by
      rw [wfStr, List.all_cons, Bool.and_eq_true] at hwf
      have hsc := hwf.1
      have hwfs' : wfStr s' = true := hwf.2
      rw [scalarCp, Bool.and_eq_true] at hsc
      have hc17 : c < 1114112 := by
        have := hsc.1
        simp at this
        omega
      have hcsur : ¬ (55296 ≤ c ∧ c ≤ 57343) := by
        have := hsc.2
        simp at this
        omega
      have harg : escStr (c :: s') ++ 34 :: rest
          = escCp c ++ (escStr s' ++ 34 :: rest) := by
        simp [escStr]
      have hlen : (escCp c).length + (escStr s').length = (escStr (c :: s')).length := by
        simp [escStr]
      rw [harg]
      by_cases h34 : c = 34
      · subst h34
        obtain ⟨f, rfl⟩ : ∃ f, fuel = f + 1 := ⟨fuel - 1, by omega⟩
        have hstep : pStr (f + 1) acc (92 :: 34 :: (escStr s' ++ 34 :: rest))
            = pStr f (34 :: acc) (escStr s' ++ 34 :: rest) := rfl
        rw [show escCp 34 = [92, 34] from rfl, List.cons_append, List.cons_append,
          List.nil_append, hstep,
          pStr_escape s' f (34 :: acc) rest hwfs' (by simp [escCp] at hlen; omega)]
        simp
      · by_cases h92 : c = 92
        · subst h92
          obtain ⟨f, rfl⟩ : ∃ f, fuel = f + 1 := ⟨fuel - 1, by omega⟩
          have hstep : pStr (f + 1) acc (92 :: 92 :: (escStr s' ++ 34 :: rest))
              = pStr f (92 :: acc) (escStr s' ++ 34 :: rest) := rfl
          rw [show escCp 92 = [92, 92] from rfl, List.cons_append, List.cons_append,
            List.nil_append, hstep,
            pStr_escape s' f (92 :: acc) rest hwfs' (by simp [escCp] at hlen; omega)]
          simp
        · by_cases h8 : c = 8
          · subst h8
            obtain ⟨f, rfl⟩ : ∃ f, fuel = f + 1 := ⟨fuel - 1, by omega⟩
            have hstep : pStr (f + 1) acc (92 :: 98 :: (escStr s' ++ 34 :: rest))
                = pStr f (8 :: acc) (escStr s' ++ 34 :: rest) := rfl
            rw [show escCp 8 = [92, 98] from rfl, List.cons_append, List.cons_append,
              List.nil_append, hstep,
              pStr_escape s' f (8 :: acc) rest hwfs' (by simp [escCp] at hlen; omega)]
            simp
          · by_cases h9 : c = 9
            · subst h9
              obtain ⟨f, rfl⟩ : ∃ f, fuel = f + 1 := ⟨fuel - 1, by omega⟩
              have hstep : pStr (f + 1) acc (92 :: 116 :: (escStr s' ++ 34 :: rest))
                  = pStr f (9 :: acc) (escStr s' ++ 34 :: rest) := rfl
              rw [show escCp 9 = [92, 116] from rfl, List.cons_append, List.cons_append,
                List.nil_append, hstep,
                pStr_escape s' f (9 :: acc) rest hwfs' (by simp [escCp] at hlen; omega)]
              simp
            · by_cases h10 : c = 10
              · subst h10
                obtain ⟨f, rfl⟩ : ∃ f, fuel = f + 1 := ⟨fuel - 1, by omega⟩
                have hstep : pStr (f + 1) acc (92 :: 110 :: (escStr s' ++ 34 :: rest))
                    = pStr f (10 :: acc) (escStr s' ++ 34 :: rest) := rfl
                rw [show escCp 10 = [92, 110] from rfl, List.cons_append, List.cons_append,
                  List.nil_append, hstep,
                  pStr_escape s' f (10 :: acc) rest hwfs' (by simp [escCp] at hlen; omega)]
                simp
              · by_cases h12 : c = 12
                · subst h12
                  obtain ⟨f, rfl⟩ : ∃ f, fuel = f + 1 := ⟨fuel - 1, by omega⟩
                  have hstep : pStr (f + 1) acc (92 :: 102 :: (escStr s' ++ 34 :: rest))
                      = pStr f (12 :: acc) (escStr s' ++ 34 :: rest) := rfl
                  rw [show escCp 12 = [92, 102] from rfl, List.cons_append,
                    List.cons_append, List.nil_append, hstep,
                    pStr_escape s' f (12 :: acc) rest hwfs'
                      (by simp [escCp] at hlen; omega)]
                  simp
                · by_cases h13 : c = 13
                  · subst h13
                    obtain ⟨f, rfl⟩ : ∃ f, fuel = f + 1 := ⟨fuel - 1, by omega⟩
                    have hstep : pStr (f + 1) acc (92 :: 114 :: (escStr s' ++ 34 :: rest))
                        = pStr f (13 :: acc) (escStr s' ++ 34 :: rest) := rfl
                    rw [show escCp 13 = [92, 114] from rfl, List.cons_append,
                      List.cons_append, List.nil_append, hstep,
                      pStr_escape s' f (13 :: acc) rest hwfs'
                        (by simp [escCp] at hlen; omega)]
                    simp
                  · by_cases hpr : 32 ≤ c ∧ c ≤ 126
                    · -- printable, kept verbatim
                      obtain ⟨f, rfl⟩ : ∃ f, fuel = f + 1 := ⟨fuel - 1, by omega⟩
                      have hesc : escCp c = [c] := by
                        rw [escCp, if_neg h34, if_neg h92, if_neg h8, if_neg h9,
                          if_neg h10, if_neg h12, if_neg h13, if_pos hpr]
                      rw [hesc, List.cons_append, List.nil_append,
                        pStr_lit f acc c _ h34 h92 (by omega),
                        pStr_escape s' f (c :: acc) rest hwfs'
                          (by rw [hesc] at hlen; simp at hlen; omega)]
                      simp
                    · by_cases hbmp : c < 65536
                      · -- one \uXXXX escape
                        obtain ⟨f, rfl⟩ : ∃ f, fuel = f + 1 := ⟨fuel - 1, by omega⟩
                        have hesc : escCp c = 92 :: 117 :: hex4 c := by
                          rw [escCp, if_neg h34, if_neg h92, if_neg h8, if_neg h9,
                            if_neg h10, if_neg h12, if_neg h13, if_neg hpr, if_pos hbmp]
                        have hre : ((c / 4096 % 16 * 16 + c / 256 % 16) * 16
                            + c / 16 % 16) * 16 + c % 16 = c := by omega
                        rw [hesc, hex4, List.cons_append, List.cons_append,
                          List.cons_append, List.cons_append, List.cons_append,
                          List.cons_append, List.nil_append,
                          pStr_u f acc _ _ _ _ _ _ _ _ _
                            (hexv_hexDig (c / 4096 % 16) (by omega))
                            (hexv_hexDig (c / 256 % 16) (by omega))
                            (hexv_hexDig (c / 16 % 16) (by omega))
                            (hexv_hexDig (c % 16) (by omega))
                            (by rw [hre]; omega)]
                        rw [hre,
                          pStr_escape s' f (c :: acc) rest hwfs'
                            (by rw [hesc] at hlen; simp [hex4] at hlen; omega)]
                        simp
                      · -- astral: surrogate pair of \uXXXX escapes
                        have hesc : escCp c
                            = (92 :: 117 :: hex4 (55296 + (c - 65536) / 1024))
                              ++ (92 :: 117 :: hex4 (56320 + (c - 65536) % 1024)) := by
                          rw [escCp, if_neg h34, if_neg h92, if_neg h8, if_neg h9,
                            if_neg h10, if_neg h12, if_neg h13, if_neg hpr, if_neg hbmp]
                        have hesclen : (escCp c).length = 12 := by
                          rw [hesc]
                          simp [hex4]
                        obtain ⟨f, rfl⟩ : ∃ f, fuel = f + 2 := ⟨fuel - 2, by omega⟩
                        have hmlt : (c - 65536) % 1024 < 1024 :=
                          Nat.mod_lt _ (by omega)
                        have hflat : escCp c ++ (escStr s' ++ 34 :: rest)
                            = 92 :: 117 :: hexDig ((55296 + (c - 65536) / 1024) / 4096 % 16)
                              :: hexDig ((55296 + (c - 65536) / 1024) / 256 % 16)
                              :: hexDig ((55296 + (c - 65536) / 1024) / 16 % 16)
                              :: hexDig ((55296 + (c - 65536) / 1024) % 16)
                              :: 92 :: 117 :: hexDig ((56320 + (c - 65536) % 1024) / 4096 % 16)
                              :: hexDig ((56320 + (c - 65536) % 1024) / 256 % 16)
                              :: hexDig ((56320 + (c - 65536) % 1024) / 16 % 16)
                              :: hexDig ((56320 + (c - 65536) % 1024) % 16)
                              :: (escStr s' ++ 34 :: rest) := by
                          rw [hesc, hex4, hex4]
                          simp
                        have hreh : (((55296 + (c - 65536) / 1024) / 4096 % 16 * 16
                            + (55296 + (c - 65536) / 1024) / 256 % 16) * 16
                            + (55296 + (c - 65536) / 1024) / 16 % 16) * 16
                            + (55296 + (c - 65536) / 1024) % 16
                            = 55296 + (c - 65536) / 1024 := by omega
                        have hrel : (((56320 + (c - 65536) % 1024) / 4096 % 16 * 16
                            + (56320 + (c - 65536) % 1024) / 256 % 16) * 16
                            + (56320 + (c - 65536) % 1024) / 16 % 16) * 16
                            + (56320 + (c - 65536) % 1024) % 16
                            = 56320 + (c - 65536) % 1024 := by omega
                        rw [hflat,
                          pStr_u_high (f + 1) acc _ _ _ _ _ _ _ _ _
                            (hexv_hexDig ((55296 + (c - 65536) / 1024) / 4096 % 16) (by omega))
                            (hexv_hexDig ((55296 + (c - 65536) / 1024) / 256 % 16) (by omega))
                            (hexv_hexDig ((55296 + (c - 65536) / 1024) / 16 % 16) (by omega))
                            (hexv_hexDig ((55296 + (c - 65536) / 1024) % 16) (by omega))
                            (by rw [hreh]; omega),
                          hreh,
                          pStrPair_low f acc _ _ _ _ _ _ _ _ _ _
                            (hexv_hexDig ((56320 + (c - 65536) % 1024) / 4096 % 16) (by omega))
                            (hexv_hexDig ((56320 + (c - 65536) % 1024) / 256 % 16) (by omega))
                            (hexv_hexDig ((56320 + (c - 65536) % 1024) / 16 % 16) (by omega))
                            (hexv_hexDig ((56320 + (c - 65536) % 1024) % 16) (by omega))
                            (by rw [hrel]; omega),
                          hrel]
                        have hcomb : 65536 + (55296 + (c - 65536) / 1024 - 55296) * 1024
                            + (56320 + (c - 65536) % 1024 - 56320) = c := by omega
                        rw [hcomb,
                          pStr_escape s' f (c :: acc) rest hwfs' (by omega)]
                        simp

/-- `skipWs` keeps a list whose head is not whitespace. -/
theorem skipWs_not_ws (c : Nat) (t : List Nat) (h : ¬(c = 32 ∨ c = 9 ∨ c = 10 ∨ c = 13)) :
    skipWs (c :: t) = c :: t := by
  rw [skipWs, if_neg h]

/-- A stopper remainder contains no leading whitespace. -/
theorem skipWs_stopOk {r : List Nat} (hr : stopOk r) : skipWs r = r := by
  cases r with
  | nil => rfl
  | cons c t =>
      rcases hr with h | h | h <;> subst h <;> exact skipWs_not_ws _ _ (by omega)

/-- Every digit run starts with a digit character. -/
theorem natDec_head (m : Nat) : ∃ c t, natDec m = c :: t ∧ 48 ≤ c ∧ c ≤ 57 := by
  cases h : natDec m with
  | nil => exact absurd h (natDec_ne_nil m)
  | cons c t =>
      have hd := natDec_digits m c (by rw [h]; exact List.mem_cons_self c t)
      rw [isDig, Bool.and_eq_true] at hd
      refine ⟨c, t, rfl, ?_, ?_⟩
      · have := hd.1
        simp at this
        omega
      · have := hd.2
        simp at this
        omega

/-- A rendered integer starts with a minus sign or a digit. -/
theorem intDec_head (n : Int) :
    ∃ c t, intDec n = c :: t ∧ (c = 45 ∨ (48 ≤ c ∧ c ≤ 57)) := by
  rw [intDec]
  by_cases hneg : n < 0
  · exact ⟨45, natDec n.natAbs, by simp [hneg], Or.inl rfl⟩
  · obtain ⟨c, t, hct, h1, h2⟩ := natDec_head n.natAbs
    exact ⟨c, t, by simp [hneg, hct], Or.inr ⟨h1, h2⟩⟩

/-- A rendered value starts with a character that is neither whitespace
nor a closing bracket. -/
theorem dumps_head (j : JVal) :
    ∃ c t, dumps j = c :: t ∧ ¬(c = 32 ∨ c = 9 ∨ c = 10 ∨ c = 13) ∧ ¬ c = 93 := by
  cases j with
  | null => exact ⟨110, [117, 108, 108], by simp [dumps], by omega, by omega⟩
  | jbool b =>
      cases b with
      | true => exact ⟨116, [114, 117, 101], by simp [dumps], by omega, by omega⟩
      | false => exact ⟨102, [97, 108, 115, 101], by simp [dumps], by omega, by omega⟩
  | jint n =>
      obtain ⟨c, t, hct, hc⟩ := intDec_head n
      exact ⟨c, t, by simp [dumps, hct], by omega, by omega⟩
  | jstr s => exact ⟨34, escStr s ++ [34], by simp [dumps], by omega, by omega⟩
  | jarr xs => exact ⟨91, dumpsElems xs ++ [93], by simp [dumps], by omega, by omega⟩
  | jobj kvs => exact ⟨123, dumpsMembers kvs ++ [125], by simp [dumps], by omega, by omega⟩

set_option maxHeartbeats 1000000 in
/-- On a non-whitespace head that matches no other scanner branch,
`pVal` defers to the number reader. -/
theorem pVal_to_pNum (f : Nat) (c : Nat) (t : List Nat)
    (hws : ¬(c = 32 ∨ c = 9 ∨ c = 10 ∨ c = 13))
    (h34 : ¬ c = 34) (h123 : ¬ c = 123) (h91 : ¬ c = 91)
    (h110 : ¬ c = 110) (h116 : ¬ c = 116) (h102 : ¬ c = 102) :
    pVal (f + 1) (c :: t) = pNum (c :: t) := by
  conv_lhs => rw [pVal]
  rw [skipWs_not_ws c t hws]
  simp only [if_neg h34, if_neg h123, if_neg h91, if_neg h110, if_neg h116, if_neg h102]

/-- `pVal` on the rendered `null` literal. -/
theorem pVal_null (f : Nat) (rest : List Nat) :
    pVal (f + 1) (110 :: 117 :: 108 :: 108 :: rest) = some (.null, rest) := rfl

/-- `pVal` on the rendered `true` literal. -/
theorem pVal_true (f : Nat) (rest : List Nat) :
    pVal (f + 1) (116 :: 114 :: 117 :: 101 :: rest) = some (.jbool true, rest) := rfl

/-- `pVal` on the rendered `false` literal. -/
theorem pVal_false (f : Nat) (rest : List Nat) :
    pVal (f + 1) (102 :: 97 :: 108 :: 115 :: 101 :: rest) = some (.jbool false, rest) := rfl

/-- `pVal` on an opening quote hands the remainder to the string scanner. -/
theorem pVal_str (f : Nat) (r : List Nat) :
    pVal (f + 1) (34 :: r)
      = match pStr (r.length + 1) [] r with
        | some (str, r2) => some (.jstr str, r2)
        | none => none := rfl

/-- `pVal` on an empty array. -/
theorem pVal_arr_nil (f : Nat) (rest : List Nat) :
    pVal (f + 1) (91 :: 93 :: rest) = some (.jarr [], rest) := rfl

/-- `pVal` on an empty object. -/
theorem pVal_obj_nil (f : Nat) (rest : List Nat) :
    pVal (f + 1) (123 :: 125 :: rest) = some (.jobj [], rest) := rfl

/-- `pVal` on an opening bracket dispatches on the next character. -/
theorem pVal_arr91 (f : Nat) (r : List Nat) :
    pVal (f + 1) (91 :: r)
      = match skipWs r with
        | c2 :: r2 =>
            if c2 = 93 then some (.jarr [], r2)
            else
              match pElems f (c2 :: r2) with
              | some (xs, r3) => some (.jarr xs, r3)
              | none => none
        | [] => none := rfl

/-- `pVal` on an opening brace dispatches on the next character. -/
theorem pVal_obj123 (f : Nat) (r : List Nat) :
    pVal (f + 1) (123 :: r)
      = match skipWs r with
        | c2 :: r2 =>
            if c2 = 125 then some (.jobj [], r2)
            else
              match pMembers f (c2 :: r2) with
              | some (ms, r3) => some (.jobj ms, r3)
              | none => none
        | [] => none := rfl

/-- A nonempty rendered array takes the `pElems` path. -/
theorem pVal_arr_cons (f : Nat) (x : JVal) (xs : List JVal) (Y : List Nat) :
    pVal (f + 1) (91 :: (dumps x ++ (dumpsElemsTail xs ++ 93 :: Y)))
      = match pElems f (dumps x ++ (dumpsElemsTail xs ++ 93 :: Y)) with
        | some (vs, r3) => some (.jarr vs, r3)
        | none => none := by
  rw [pVal_arr91]
  obtain ⟨c, t, hct, hws, h93⟩ := dumps_head x
  rw [hct, List.cons_append, skipWs_not_ws c _ hws]
  simp only [if_neg h93]

/-- A nonempty rendered object takes the `pMembers` path. -/
theorem pVal_obj_cons (f : Nat) (Z : List Nat) :
    pVal (f + 1) (123 :: 34 :: Z)
      = match pMembers f (34 :: Z) with
        | some (ms, r3) => some (JVal.jobj ms, r3)
        | none => none := rfl

/-- A digit run has at least one character. -/
theorem natDec_length (n : Nat) : 1 ≤ (natDec n).length :=
  List.length_pos.2 (natDec_ne_nil n)

mutual
/-- The parser size of a value is at most twice its rendered length. -/
theorem dumps_size_v : ∀ (j : JVal), sizeV j ≤ 2 * (dumps j).length
  | .null => by simp [dumps, sizeV]
  | .jbool true => by simp [dumps, sizeV]
  | .jbool false => by simp [dumps, sizeV]
  | .jint n => by
      have h1 := natDec_length n.natAbs
      simp only [dumps, sizeV, intDec]
      by_cases hneg : n < 0 <;> simp [hneg] <;> omega
  | .jstr s => by simp [dumps, sizeV]; omega
  | .jarr xs => by
      have h := dumps_size_e xs
      simp only [dumps, sizeV, List.length_cons, List.length_append]
      simp only [List.length_cons, List.length_nil] at *
      omega
  | .jobj kvs => by
      have h := dumps_size_m kvs
      simp only [dumps, sizeV, List.length_cons, List.length_append]
      simp only [List.length_cons, List.length_nil] at *
      omega
/-- Size bound for a full element list. -/
theorem dumps_size_e : ∀ (xs : List JVal), sizeE xs ≤ 2 * (dumpsElems xs).length + 3
  | [] => by simp [dumpsElems, sizeE]
  | x :: xs => by
      have h1 := dumps_size_v x
      have h2 := dumps_size_et xs
      simp only [dumpsElems, sizeE, List.length_append]
      omega
/-- Size bound for an element tail. -/
theorem dumps_size_et : ∀ (xs : List JVal), sizeE xs ≤ 2 * (dumpsElemsTail xs).length + 1
  | [] => by simp [dumpsElemsTail, sizeE]
  | x :: xs => by
      have h1 := dumps_size_v x
      have h2 := dumps_size_et xs
      simp only [dumpsElemsTail, sizeE, List.length_cons, List.length_append]
      omega
/-- Size bound for a full member list. -/
theorem dumps_size_m :
    ∀ (ms : List (List Nat × JVal)), sizeM ms ≤ 2 * (dumpsMembers ms).length + 3
  | [] => by simp [dumpsMembers, sizeM]
  | (k, v) :: ms => by
      have h1 := dumps_size_v v
      have h2 := dumps_size_mt ms
      simp only [dumpsMembers, sizeM, List.length_cons, List.length_append]
      omega
/-- Size bound for a member tail. -/
theorem dumps_size_mt :
    ∀ (ms : List (List Nat × JVal)), sizeM ms ≤ 2 * (dumpsMembersTail ms).length + 1
  | [] => by simp [dumpsMembersTail, sizeM]
  | (k, v) :: ms => by
      have h1 := dumps_size_v v
      have h2 := dumps_size_mt ms
      simp only [dumpsMembersTail, sizeM, List.length_cons, List.length_append]
      omega
end

/-- Element sizes are positive. -/
theorem sizeE_pos (xs : List JVal) : 1 ≤ sizeE xs := by
  cases xs with
  | nil => simp [sizeE]
  | cons x xs => simp [sizeE]; omega

/-- Member sizes are positive. -/
theorem sizeM_pos (ms : List (List Nat × JVal)) : 1 ≤ sizeM ms := by
  cases ms with
  | nil => simp [sizeM]
  | cons e ms => obtain ⟨k, v⟩ := e; simp [sizeM]; omega

/-- Value sizes are positive. -/
theorem sizeV_pos (j : JVal) : 1 ≤ sizeV j := by
  cases j <;> simp [sizeV]

/-- Unfolding of `pElems` when the first value parses. -/
theorem pElems_some (f : Nat) (s : List Nat) (v : JVal) (r : List Nat)
    (h : pVal f s = some (v, r)) :
    pElems (f + 1) s = pElemsRest f v (skipWs r) := by
  have h1 : pElems (f + 1) s
      = (match pVal f s with
         | none => none
         | some (v, r) => pElemsRest f v (skipWs r)) := rfl
  rw [h1, h]

/-- The element delimiter handler on a closing bracket. -/
theorem pElemsRest_93 (f : Nat) (v : JVal) (r2 : List Nat) :
    pElemsRest (f + 1) v (93 :: r2) = some ([v], r2) := rfl

/-- The element delimiter handler on a comma, when the remaining
elements parse. -/
theorem pElemsRest_44_some (f : Nat) (v : JVal) (r2 : List Nat)
    (vs : List JVal) (r3 : List Nat) (h : pElems f (skipWs r2) = some (vs, r3)) :
    pElemsRest (f + 1) v (44 :: r2) = some (v :: vs, r3) := by
  have h1 : pElemsRest (f + 1) v (44 :: r2)
      = (match pElems f (skipWs r2) with
         | some (vs, r3) => some (v :: vs, r3)
         | none => none) := rfl
  rw [h1, h]

/-- Unfolding of `pMembers`. -/
theorem pMembers_succ (f : Nat) (s : List Nat) :
    pMembers (f + 1) s = pMembersKey f (skipWs s) := rfl

/-- Unfolding of the key reader when the key string parses. -/
theorem pMembersKey_34_some (f : Nat) (r key r1 : List Nat)
    (h : pStr (r.length + 1) [] r = some (key, r1)) :
    pMembersKey (f + 1) (34 :: r) = pMembersColon f key (skipWs r1) := by
  have h1 : pMembersKey (f + 1) (34 :: r)
      = (match pStr (r.length + 1) [] r with
         | none => none
         | some (key, r1) => pMembersColon f key (skipWs r1)) := rfl
  rw [h1, h]

/-- Unfolding of the colon handler when the member value parses. -/
theorem pMembersColon_58_some (f : Nat) (key r2 : List Nat) (v : JVal) (r3 : List Nat)
    (h : pVal f (skipWs r2) = some (v, r3)) :
    pMembersColon (f + 1) key (58 :: r2) = pMembersRest f key v (skipWs r3) := by
  have h1 : pMembersColon (f + 1) key (58 :: r2)
      = (match pVal f (skipWs r2) with
         | none => none
         | some (v, r3) => pMembersRest f key v (skipWs r3)) := rfl
  rw [h1, h]

/-- The member delimiter handler on a closing brace. -/
theorem pMembersRest_125 (f : Nat) (key : List Nat) (v : JVal) (r4 : List Nat) :
    pMembersRest (f + 1) key v (125 :: r4) = some ([(key, v)], r4) := rfl

/-- The member delimiter handler on a comma, when the remaining members
parse. -/
theorem pMembersRest_44_some (f : Nat) (key : List Nat) (v : JVal) (r4 : List Nat)
    (ms : List (List Nat × JVal)) (r5 : List Nat)
    (h : pMembers f (skipWs r4) = some (ms, r5)) :
    pMembersRest (f + 1) key v (44 :: r4) = some ((key, v) :: ms, r5) := by
  have h1 : pMembersRest (f + 1) key v (44 :: r4)
      = (match pMembers f (skipWs r4) with
         | some (ms, r5) => some ((key, v) :: ms, r5)
         | none => none) := rfl
  rw [h1, h]

/-- An element tail followed by a closing bracket starts with a stopper. -/
theorem stopOk_elemsTail (xs : List JVal) (rest : List Nat) :
    stopOk (dumpsElemsTail xs ++ 93 :: rest) := by
  cases xs with
  | nil =>
      simp only [dumpsElemsTail, List.nil_append]
      exact Or.inr (Or.inl rfl)
  | cons y ys =>
      simp only [dumpsElemsTail, List.cons_append]
      exact Or.inl rfl

/-- A member tail followed by a closing brace starts with a stopper. -/
theorem stopOk_membersTail (ms : List (List Nat × JVal)) (rest : List Nat) :
    stopOk (dumpsMembersTail ms ++ 125 :: rest) := by
  cases ms with
  | nil =>
      simp only [dumpsMembersTail, List.nil_append]
      exact Or.inr (Or.inr rfl)
  | cons e ms2 =>
      obtain ⟨k2, v2⟩ := e
      simp only [dumpsMembersTail, List.cons_append]
      exact Or.inl rfl

/-- `skipWs` keeps a rendered value followed by anything. -/
theorem skipWs_dumps (v : JVal) (Z : List Nat) :
    skipWs (dumps v ++ Z) = dumps v ++ Z := by
  obtain ⟨c, t, hct, hws, _⟩ := dumps_head v
  rw [hct, List.cons_append]
  exact skipWs_not_ws c _ hws

mutual
/-- Parsing inverts rendering on well-formed values: `pVal` consumes
exactly `dumps j` and recovers `j`, given fuel above the value's size
and a stopper remainder. -/
theorem rt_val : ∀ (fuel : Nat) (j : JVal) (rest : List Nat),
    wfPayload j = true → sizeV j < fuel → stopOk rest →
    pVal fuel (dumps j ++ rest) = some (j, rest)
  | 0, j, _, _, hsz, _ => by
      have := sizeV_pos j
      omega
  | fuel + 1, j, rest, hwf, hsz, hr => by
      cases j with
      | null =>
          have harg : dumps JVal.null ++ rest = 110 :: 117 :: 108 :: 108 :: rest := by
            simp [dumps]
          rw [harg]
          exact pVal_null fuel rest
      | jbool b =>
          cases b with
          | true =>
              have harg : dumps (JVal.jbool true) ++ rest
                  = 116 :: 114 :: 117 :: 101 :: rest := by simp [dumps]
              rw [harg]
              exact pVal_true fuel rest
          | false =>
              have harg : dumps (JVal.jbool false) ++ rest
                  = 102 :: 97 :: 108 :: 115 :: 101 :: rest := by simp [dumps]
              rw [harg]
              exact pVal_false fuel rest
      | jint n =>
          obtain ⟨c, t, hct, hc⟩ := intDec_head n
          have harg : dumps (JVal.jint n) ++ rest = c :: (t ++ rest) := by
            simp [dumps, hct]
          rw [harg, pVal_to_pNum fuel c (t ++ rest) (by omega) (by omega) (by omega)
            (by omega) (by omega) (by omega) (by omega)]
          have harg2 : (c :: (t ++ rest) : List Nat) = intDec n ++ rest := by
            simp [hct]
          rw [harg2, pNum_intDec n rest hr]
      | jstr s =>
          rw [wfPayload] at hwf
          have harg : dumps (JVal.jstr s) ++ rest = 34 :: (escStr s ++ 34 :: rest) := by
            simp [dumps]
          rw [harg, pVal_str fuel (escStr s ++ 34 :: rest),
            pStr_escape s ((escStr s ++ 34 :: rest).length + 1) [] rest hwf
              (by simp [List.length_append]; omega)]
          simp
      | jarr xs =>
          cases xs with
          | nil =>
              have harg : dumps (JVal.jarr []) ++ rest = 91 :: 93 :: rest := by
                simp [dumps, dumpsElems]
              rw [harg]
              exact pVal_arr_nil fuel rest
          | cons x xs =>
              rw [wfPayload] at hwf
              rw [sizeV] at hsz
              have harg : dumps (JVal.jarr (x :: xs)) ++ rest
                  = 91 :: (dumps x ++ (dumpsElemsTail xs ++ 93 :: rest)) := by
                simp [dumps, dumpsElems]
              rw [harg, pVal_arr_cons fuel x xs rest]
              have he : dumps x ++ (dumpsElemsTail xs ++ 93 :: rest)
                  = dumpsElems (x :: xs) ++ 93 :: rest := by simp [dumpsElems]
              rw [he, rt_elems fuel x xs rest hwf (by omega)]
      | jobj kvs =>
          cases kvs with
          | nil =>
              have harg : dumps (JVal.jobj []) ++ rest = 123 :: 125 :: rest := by
                simp [dumps, dumpsMembers]
              rw [harg]
              exact pVal_obj_nil fuel rest
          | cons e ms =>
              obtain ⟨k, v⟩ := e
              rw [wfPayload, Bool.and_eq_true, Bool.and_eq_true] at hwf
              rw [sizeV] at hsz
              have harg : dumps (JVal.jobj ((k, v) :: ms)) ++ rest
                  = 123 :: 34 :: ((escStr k ++ (34 :: 58 :: (dumps v ++ dumpsMembersTail ms)))
                    ++ 125 :: rest) := by
                simp [dumps, dumpsMembers]
              rw [harg, pVal_obj_cons fuel _]
              have hm : (34 :: ((escStr k ++ (34 :: 58 :: (dumps v ++ dumpsMembersTail ms)))
                    ++ 125 :: rest) : List Nat)
                  = dumpsMembers ((k, v) :: ms) ++ 125 :: rest := by
                simp [dumpsMembers]
              rw [hm, rt_members fuel k v ms rest hwf.1.2 hwf.2 (by omega)]
/-- Parsing inverts rendering on nonempty element lists. -/
theorem rt_elems : ∀ (fuel : Nat) (x : JVal) (xs : List JVal) (rest : List Nat),
    wfArr (x :: xs) = true → sizeE (x :: xs) < fuel →
    pElems fuel (dumpsElems (x :: xs) ++ 93 :: rest) = some (x :: xs, rest)
  | 0, x, xs, _, _, hsz => by
      have := sizeE_pos (x :: xs)
      omega
  | fuel + 1, x, xs, rest, hwf, hsz => by
      rw [wfArr, Bool.and_eq_true] at hwf
      rw [sizeE] at hsz
      have hposx := sizeV_pos x
      have hpos := sizeE_pos xs
      have harg : dumpsElems (x :: xs) ++ 93 :: rest
          = dumps x ++ (dumpsElemsTail xs ++ 93 :: rest) := by simp [dumpsElems]
      have hv := rt_val fuel x (dumpsElemsTail xs ++ 93 :: rest) hwf.1 (by omega)
        (stopOk_elemsTail xs rest)
      rw [harg, pElems_some fuel _ x _ hv, skipWs_stopOk (stopOk_elemsTail xs rest)]
      cases xs with
      | nil =>
          obtain ⟨g, rfl⟩ : ∃ g, fuel = g + 1 := ⟨fuel - 1, by omega⟩
          have h0 : dumpsElemsTail ([] : List JVal) ++ 93 :: rest = 93 :: rest := by
            simp [dumpsElemsTail]
          rw [h0, pElemsRest_93]
      | cons y ys =>
          obtain ⟨g, rfl⟩ : ∃ g, fuel = g + 1 := ⟨fuel - 1, by omega⟩
          have h0 : dumpsElemsTail (y :: ys) ++ 93 :: rest
              = 44 :: (dumpsElems (y :: ys) ++ 93 :: rest) := by
            simp [dumpsElemsTail, dumpsElems]
          have he2 : dumpsElems (y :: ys) ++ 93 :: rest
              = dumps y ++ (dumpsElemsTail ys ++ 93 :: rest) := by simp [dumpsElems]
          have hsk : skipWs (dumpsElems (y :: ys) ++ 93 :: rest)
              = dumpsElems (y :: ys) ++ 93 :: rest := by
            rw [he2]
            exact skipWs_dumps y _
          have hrec := rt_elems g y ys rest hwf.2 (by omega)
          rw [h0, pElemsRest_44_some g x _ (y :: ys) rest (by rw [hsk]; exact hrec)]
/-- Parsing inverts rendering on nonempty member lists. -/
theorem rt_members : ∀ (fuel : Nat) (k : List Nat) (v : JVal)
      (ms : List (List Nat × JVal)) (rest : List Nat),
    (((k, v) :: ms).map Prod.fst).all wfStr = true →
    wfMems ((k, v) :: ms) = true → sizeM ((k, v) :: ms) < fuel →
    pMembers fuel (dumpsMembers ((k, v) :: ms) ++ 125 :: rest) = some ((k, v) :: ms, rest)
  | 0, k, v, ms, _, _, _, hsz => by
      have := sizeM_pos ((k, v) :: ms)
      omega
  | fuel + 1, k, v, ms, rest, hkeys, hms, hsz => by
      simp only [List.map_cons, List.all_cons, Bool.and_eq_true] at hkeys
      rw [wfMems, Bool.and_eq_true] at hms
      rw [sizeM] at hsz
      have hposv := sizeV_pos v
      have hposm := sizeM_pos ms
      obtain ⟨g, rfl⟩ : ∃ g, fuel = g + 1 + 1 + 1 := ⟨fuel - 3, by omega⟩
      have harg : dumpsMembers ((k, v) :: ms) ++ 125 :: rest
          = 34 :: (escStr k
              ++ 34 :: 58 :: (dumps v ++ (dumpsMembersTail ms ++ 125 :: rest))) := by
        simp [dumpsMembers]
      have hps := pStr_escape k
        ((escStr k ++ 34 :: 58 :: (dumps v ++ (dumpsMembersTail ms ++ 125 :: rest))).length
          + 1)
        [] (58 :: (dumps v ++ (dumpsMembersTail ms ++ 125 :: rest))) hkeys.1
        (by simp [List.length_append]; omega)
      simp only [List.reverse_nil, List.nil_append] at hps
      have hv := rt_val (g + 1) v (dumpsMembersTail ms ++ 125 :: rest) hms.1 (by omega)
        (stopOk_membersTail ms rest)
      rw [harg, pMembers_succ, skipWs_not_ws 34 _ (by omega),
        pMembersKey_34_some (g + 1 + 1) _ k _ hps,
        skipWs_not_ws 58 _ (by omega),
        pMembersColon_58_some (g + 1) k _ v _ (by rw [skipWs_dumps v _]; exact hv),
        skipWs_stopOk (stopOk_membersTail ms rest)]
      cases ms with
      | nil =>
          have h0 : dumpsMembersTail ([] : List (List Nat × JVal)) ++ 125 :: rest
              = 125 :: rest := by simp [dumpsMembersTail]
          rw [h0, pMembersRest_125]
      | cons e ms2 =>
          obtain ⟨k2, v2⟩ := e
          have h0 : dumpsMembersTail ((k2, v2) :: ms2) ++ 125 :: rest
              = 44 :: (dumpsMembers ((k2, v2) :: ms2) ++ 125 :: rest) := by
            simp [dumpsMembersTail, dumpsMembers]
          have hsk : skipWs (dumpsMembers ((k2, v2) :: ms2) ++ 125 :: rest)
              = dumpsMembers ((k2, v2) :: ms2) ++ 125 :: rest := by
            have h1 : dumpsMembers ((k2, v2) :: ms2) ++ 125 :: rest
                = 34 :: (escStr k2
                    ++ 34 :: 58 :: (dumps v2 ++ (dumpsMembersTail ms2 ++ 125 :: rest))) := by
              simp [dumpsMembers]
            rw [h1]
            exact skipWs_not_ws 34 _ (by omega)
          have hrec := rt_members g k2 v2 ms2 rest hkeys.2 hms.2 (by omega)
          rw [h0, pMembersRest_44_some g k v _ ((k2, v2) :: ms2) rest
            (by rw [hsk]; exact hrec)]
end

/-- Hex digit characters of a nibble are ASCII. -/
theorem hexDig_ascii (d : Nat) (h : d < 16) : hexDig d < 128 := by
  rw [hexDig]
  split_ifs <;> omega

/-- All four characters of a `\uXXXX` block are ASCII. -/
theorem hex4_ascii (n : Nat) : ∀ x ∈ hex4 n, x < 128 := by
  intro x hx
  rw [hex4] at hx
  simp only [List.mem_cons, List.not_mem_nil, or_false] at hx
  rcases hx with h | h | h | h <;> subst h <;> exact hexDig_ascii _ (by omega)

/-- Escaped code points render to ASCII characters only--the
`ensure_ascii=True` guarantee. -/
theorem escCp_ascii (c : Nat) : ∀ x ∈ escCp c, x < 128 := by
  intro x hx
  rw [escCp] at hx
  split_ifs at hx with h1 h2 h3 h4 h5 h6 h7 h8 h9
  · simp only [List.mem_cons, List.not_mem_nil, or_false] at hx
    omega
  · simp only [List.mem_cons, List.not_mem_nil, or_false] at hx
    omega
  · simp only [List.mem_cons, List.not_mem_nil, or_false] at hx
    omega
  · simp only [List.mem_cons, List.not_mem_nil, or_false] at hx
    omega
  · simp only [List.mem_cons, List.not_mem_nil, or_false] at hx
    omega
  · simp only [List.mem_cons, List.not_mem_nil, or_false] at hx
    omega
  · simp only [List.mem_cons, List.not_mem_nil, or_false] at hx
    omega
  · simp only [List.mem_cons, List.not_mem_nil, or_false] at hx
    omega
  · simp only [List.mem_cons] at hx
    rcases hx with h | h | h
    · omega
    · omega
    · exact hex4_ascii _ x h
  · simp only [List.mem_append, List.mem_cons] at hx
    rcases hx with (h | h | h) | (h | h | h)
    · omega
    · omega
    · exact hex4_ascii _ x h
    · omega
    · omega
    · exact hex4_ascii _ x h

/-- Escaped strings are ASCII. -/
theorem escStr_ascii (s : List Nat) : ∀ x ∈ escStr s, x < 128 := by
  intro x hx
  rw [escStr] at hx
  rw [List.mem_flatMap] at hx
  obtain ⟨a, _, hxa⟩ := hx
  exact escCp_ascii a x hxa

mutual
/-- `json.dumps` output is pure ASCII. -/
theorem dumps_ascii_v : ∀ (j : JVal), ∀ c ∈ dumps j, c < 128
  | .null => by
      intro c hc
      simp only [dumps, List.mem_cons, List.not_mem_nil, or_false] at hc
      omega
  | .jbool true => by
      intro c hc
      simp only [dumps, List.mem_cons, List.not_mem_nil, or_false] at hc
      omega
  | .jbool false => by
      intro c hc
      simp only [dumps, List.mem_cons, List.not_mem_nil, or_false] at hc
      omega
  | .jint n => by
      intro c hc
      simp only [dumps, intDec] at hc
      rcases List.mem_append.1 hc with h | h
      · by_cases hneg : n < 0
        · simp [hneg] at h
          omega
        · simp [hneg] at h
      · have hd := natDec_digits n.natAbs c h
        rw [isDig, Bool.and_eq_true] at hd
        have h2 := hd.2
        simp at h2
        omega
  | .jstr s => by
      intro c hc
      simp only [dumps, List.mem_cons] at hc
      rcases hc with h | h
      · omega
      · rcases List.mem_append.1 h with h2 | h2
        · exact escStr_ascii s c h2
        · simp only [List.mem_cons, List.not_mem_nil, or_false] at h2
          omega
  | .jarr xs => by
      intro c hc
      simp only [dumps, List.mem_cons] at hc
      rcases hc with h | h
      · omega
      · rcases List.mem_append.1 h with h2 | h2
        · exact dumps_ascii_e xs c h2
        · simp only [List.mem_cons, List.not_mem_nil, or_false] at h2
          omega
  | .jobj kvs => by
      intro c hc
      simp only [dumps, List.mem_cons] at hc
      rcases hc with h | h
      · omega
      · rcases List.mem_append.1 h with h2 | h2
        · exact dumps_ascii_m kvs c h2
        · simp only [List.mem_cons, List.not_mem_nil, or_false] at h2
          omega
/-- Rendered element lists are ASCII. -/
theorem dumps_ascii_e : ∀ (xs : List JVal), ∀ c ∈ dumpsElems xs, c < 128
  | [] => by
      intro c hc
      simp [dumpsElems] at hc
  | x :: xs => by
      intro c hc
      simp only [dumpsElems] at hc
      rcases List.mem_append.1 hc with h | h
      · exact dumps_ascii_v x c h
      · exact dumps_ascii_et xs c h
/-- Rendered element tails are ASCII. -/
theorem dumps_ascii_et : ∀ (xs : List JVal), ∀ c ∈ dumpsElemsTail xs, c < 128
  | [] => by
      intro c hc
      simp [dumpsElemsTail] at hc
  | x :: xs => by
      intro c hc
      simp only [dumpsElemsTail, List.mem_cons] at hc
      rcases hc with h | h
      · omega
      · rcases List.mem_append.1 h with h2 | h2
        · exact dumps_ascii_v x c h2
        · exact dumps_ascii_et xs c h2
/-- Rendered member lists are ASCII. -/
theorem dumps_ascii_m : ∀ (ms : List (List Nat × JVal)), ∀ c ∈ dumpsMembers ms, c < 128
  | [] => by
      intro c hc
      simp [dumpsMembers] at hc
  | (k, v) :: ms => by
      intro c hc
      simp only [dumpsMembers, List.mem_cons] at hc
      rcases hc with h | h
      · omega
      · rcases List.mem_append.1 h with h2 | h2
        · exact escStr_ascii k c h2
        · simp only [List.mem_cons] at h2
          rcases h2 with h3 | h3 | h3
          · omega
          · omega
          · rcases List.mem_append.1 h3 with h4 | h4
            · exact dumps_ascii_v v c h4
            · exact dumps_ascii_mt ms c h4
/-- Rendered member tails are ASCII. -/
theorem dumps_ascii_mt :
    ∀ (ms : List (List Nat × JVal)), ∀ c ∈ dumpsMembersTail ms, c < 128
  | [] => by
      intro c hc
      simp [dumpsMembersTail] at hc
  | (k, v) :: ms => by
      intro c hc
      simp only [dumpsMembersTail, List.mem_cons] at hc
      rcases hc with h | h | h
      · omega
      · omega
      · rcases List.mem_append.1 h with h2 | h2
        · exact escStr_ascii k c h2
        · simp only [List.mem_cons] at h2
          rcases h2 with h3 | h3 | h3
          · omega
          · omega
          · rcases List.mem_append.1 h3 with h4 | h4
            · exact dumps_ascii_v v c h4
            · exact dumps_ascii_mt ms c h4
end

/-- Strict UTF-8 decoding is the identity on ASCII byte strings. -/
theorem utf8Decode_ascii : ∀ (bs : List Nat), (∀ c ∈ bs, c < 128) → utf8Decode bs = some bs
  | [], _ => rfl
  | b :: bs, h => by
      have hb : b < 128 := h b (List.mem_cons_self b bs)
      have hrec := utf8Decode_ascii bs (fun c hc => h c (List.mem_cons_of_mem b hc))
      cases bs with
      | nil =>
          rw [utf8Decode.eq_5, if_pos hb]
          rfl
      | cons b2 bs2 =>
          cases bs2 with
          | nil =>
              rw [utf8Decode.eq_4, if_pos hb, hrec]
              rfl
          | cons b3 bs3 =>
              cases bs3 with
              | nil =>
                  rw [utf8Decode.eq_3, if_pos hb, hrec]
                  rfl
              | cons b4 bs4 =>
                  rw [utf8Decode.eq_2, if_pos hb, hrec]
                  rfl

/-- `json.loads` inverts `json.dumps` at the code-point level. -/
theorem loadsCp_dumps (j : JVal) (h : wfPayload j = true) : loadsCp (dumps j) = some j := by
  have hfuel : sizeV j < 2 * (dumps j).length + 2 := by
    have := dumps_size_v j
    omega
  have h1 := rt_val (2 * (dumps j).length + 2) j [] h hfuel trivial
  rw [List.append_nil] at h1
  have h2 : loadsCp (dumps j)
      = (match pVal (2 * (dumps j).length + 2) (dumps j) with
         | some (v, r) => if skipWs r = [] then some v else none
         | none => none) := rfl
  rw [h2, h1]
  rfl

/-- `json.loads` inverts `json.dumps` at the byte level: the rendered
bytes are ASCII, so UTF-8 decoding is the identity on them. -/
theorem loads_dumps (j : JVal) (h : wfPayload j = true) : loads (dumps j) = some j := by
  rw [loads, utf8Decode_ascii (dumps j) (dumps_ascii_v j), Option.some_bind]
  exact loadsCp_dumps j h

/-- Unpacking the four little-endian bytes of a 32-bit value restores
it. -/
theorem unpack_le4 (n : Nat) (h : n < 4294967296) :
    unpack_u32 (n % 256) (n / 256 % 256) (n / 65536 % 256) (n / 16777216 % 256) = n := by
  rw [unpack_u32]
  omega

/-! ## C8 — IPC framing round trip -/

/-- C8: for op 0 or 1 and any well-formed payload whose serialization
fits in 64 KiB, decoding the encoded frame (4-byte little-endian op,
4-byte little-endian length, JSON payload bytes) returns exactly the
same op and an equal JSON value. -/
theorem c8_framing_roundtrip (op : Nat) (j : JVal)
    (hop : op = 0 ∨ op = 1) (hwf : wfPayload j = true)
    (hlen : (dumps j).length ≤ 65536) :
    ∃ pkg, send_data_linux (op : Int) j = some pkg
      ∧ receive_data_linux pkg = RecvResult.ok op j := by
  have hp1 : pack_i32 (op : Int) = some (le4 op) := by
    rw [pack_i32, if_pos (by omega)]
    have hmod : ((op : Int) % 4294967296) = (op : Int) := by omega
    rw [hmod, Int.toNat_natCast]
  have hp2 : pack_i32 ((dumps j).length : Int) = some (le4 (dumps j).length) := by
    rw [pack_i32, if_pos (by omega)]
    have hmod : (((dumps j).length : Int) % 4294967296) = ((dumps j).length : Int) := by
      omega
    rw [hmod, Int.toNat_natCast]
  have hsend : send_data_linux (op : Int) j
      = some (le4 op ++ le4 (dumps j).length ++ dumps j) := by
    rw [send_data_linux, hp1, Option.some_bind, hp2, Option.some_bind]
  refine ⟨le4 op ++ le4 (dumps j).length ++ dumps j, hsend, ?_⟩
  have hfrm : le4 op ++ le4 (dumps j).length ++ dumps j
      = op % 256 :: (op / 256 % 256) :: (op / 65536 % 256) :: (op / 16777216 % 256)
        :: ((dumps j).length % 256) :: ((dumps j).length / 256 % 256)
        :: ((dumps j).length / 65536 % 256) :: ((dumps j).length / 16777216 % 256)
        :: dumps j := by
    simp [le4]
  rw [hfrm]
  have h2 : receive_data_linux
        (op % 256 :: (op / 256 % 256) :: (op / 65536 % 256) :: (op / 16777216 % 256)
          :: ((dumps j).length % 256) :: ((dumps j).length / 256 % 256)
          :: ((dumps j).length / 65536 % 256) :: ((dumps j).length / 16777216 % 256)
          :: dumps j)
      = (match loads ((dumps j).take (unpack_u32 ((dumps j).length % 256)
            ((dumps j).length / 256 % 256) ((dumps j).length / 65536 % 256)
            ((dumps j).length / 16777216 % 256))) with
         | some v => RecvResult.ok (unpack_u32 (op % 256) (op / 256 % 256)
             (op / 65536 % 256) (op / 16777216 % 256)) v
         | none => RecvResult.exn) := rfl
  rw [h2, unpack_le4 (dumps j).length (by omega), unpack_le4 op (by omega),
    List.take_length, loads_dumps j hwf]

/-- C8 witness: the handshake op and the `null` payload round-trip
through the frame codec. -/
theorem c8_framing_roundtrip_witness :
    ∃ pkg, send_data_linux ((1 : Nat) : Int) JVal.null = some pkg
      ∧ receive_data_linux pkg = RecvResult.ok 1 JVal.null :=
  c8_framing_roundtrip 1 JVal.null (Or.inr rfl) (by simp [wfPayload]) (by simp [dumps])
